import Mathlib

/-!
Verification of the pathway-analyzer core (`src/app.py`).

The development shallowly embeds the four components of the app:
`get_all_kegg_pathways` (catalog parsing), `get_pathway_data` (record
parsing), the overlap frequency tables (`gene_counts`, `genes_by_freq`
and their metabolite twins), and the networkx graph construction.

Python strings are modelled as `List Char`; Python `set` as `Finset`;
fallible code (statements that can raise) returns `Option`.
-/

namespace PathwayAnalyzer

/-! ## Python string primitives -/

/-- Characters Python `str.strip` / `str.split()` treat as whitespace
(ASCII fragment; all inputs here are ASCII). -/
def pyIsSpace (c : Char) : Bool :=
  c == ' ' || c == '\t' || c == '\n' || c == '\r' || c == '\x0b' || c == '\x0c'

/-- `s.lstrip()` on a char list. -/
def trimLeft (s : List Char) : List Char := s.dropWhile pyIsSpace

/-- `s.rstrip()` on a char list. -/
def trimRight (s : List Char) : List Char := (s.reverse.dropWhile pyIsSpace).reverse

/-- Python `s.strip()`. -/
def pyStrip (s : List Char) : List Char := trimRight (trimLeft s)

/-- Worker for Python `s.split()` (split on whitespace runs, no empty
tokens); `acc` holds the current token reversed. -/
def splitWsAux : List Char → List Char → List (List Char)
  | [], acc => if acc.isEmpty then [] else [acc.reverse]
  | c :: rest, acc =>
    if pyIsSpace c then
      if acc.isEmpty then splitWsAux rest [] else acc.reverse :: splitWsAux rest []
    else splitWsAux rest (c :: acc)

/-- Python `s.split()` with no argument: whitespace tokenization. -/
def pySplitWs (s : List Char) : List (List Char) := splitWsAux s []

/-- Fuelled worker for Python `s.split(sep)` with a non-empty separator;
fuel bounds the number of characters still to examine. -/
def splitOnAux (sep : List Char) : Nat → List Char → List Char → List (List Char)
  | _, [], acc => [acc.reverse]
  | 0, s, acc => [acc.reverse ++ s]
  | fuel + 1, c :: rest, acc =>
    if sep.isPrefixOf (c :: rest) then
      acc.reverse :: splitOnAux sep fuel ((c :: rest).drop sep.length) []
    else splitOnAux sep fuel rest (c :: acc)

/-- Python `s.split(sep)` for a non-empty separator. -/
def pySplitOn (sep s : List Char) : List (List Char) := splitOnAux sep s.length s []

/-- Fuelled worker for Python `s.replace(old, new)` (all non-overlapping
occurrences, left to right). -/
def replaceAux (pat rep : List Char) : Nat → List Char → List Char
  | _, [] => []
  | 0, s => s
  | fuel + 1, c :: rest =>
    if pat.isPrefixOf (c :: rest) then
      rep ++ replaceAux pat rep fuel ((c :: rest).drop pat.length)
    else c :: replaceAux pat rep fuel rest

/-- Python `s.replace(old, new)` for a non-empty `old`. -/
def pyReplace (pat rep s : List Char) : List Char := replaceAux pat rep s.length s

/-- Python `s.startswith(p)`. -/
def pyStartswith (p s : List Char) : Bool := p.isPrefixOf s

/-- Python `s.isdigit()` (ASCII digits; all tokens here are ASCII). -/
def pyIsdigit (s : List Char) : Bool := !s.isEmpty && s.all Char.isDigit

/-- Run a loop body that may raise (`Option`) over a list, propagating
the failure: models a Python `for` whose body can throw. -/
def optFold {σ α : Type} (f : σ → α → Option σ) : σ → List α → Option σ
  | s, [] => some s
  | s, a :: l =>
    match f s a with
    | none => none
    | some s' => optFold f s' l

/-! ## RecordParser: `get_pathway_data` (src/app.py lines 42-57)

The loop state is the pair of section flags plus the two result sets. -/

/-- Mutable state of the `get_pathway_data` loop. -/
structure RState where
  geneRec : Bool
  metRec : Bool
  genes : Finset (List Char)
  mets : Finset (List Char)
  deriving DecidableEq

/-- Initial loop state: no section open, both sets empty. -/
def initRState : RState := ⟨false, false, ∅, ∅⟩

/-- The token-level part of the loop body: `parts = line_cont.split()`
has already been computed; mirrors
`if parts: if gene_record and parts[0].isdigit(): genes.add(parts[1])
elif metabolite_record: metabolites.add(parts[0])`.
`parts[1]` on a one-token list raises `IndexError`, hence `none`. -/
def procTokens (g m : Bool) (parts : List (List Char)) (s : RState) : Option RState :=
  match parts with
  | [] => some ⟨g, m, s.genes, s.mets⟩
  | p0 :: rest =>
    if g && pyIsdigit p0 then
      match rest with
      | [] => none
      | p1 :: _ => some ⟨g, m, insert p1 s.genes, s.mets⟩
    else if m then some ⟨g, m, s.genes, insert p0 s.mets⟩
    else some ⟨g, m, s.genes, s.mets⟩

/-- `if line_cont: parts = line_cont.split(); if parts: ...` with the
already-assigned section flags `g`, `m`. -/
def procContent (g m : Bool) (lc : List Char) (s : RState) : Option RState :=
  if lc.isEmpty then some ⟨g, m, s.genes, s.mets⟩
  else procTokens g m (pySplitWs lc) s

/-- One iteration of the `for line in data.split('\n')` loop of
`get_pathway_data`. -/
def procLine (s : RState) (line : List Char) : Option RState :=
  if pyStartswith "GENE".data line then
    procContent true false (pyStrip (line.drop 12)) s
  else if pyStartswith "COMPOUND".data line then
    procContent false true (pyStrip (line.drop 12)) s
  else if (s.geneRec || s.metRec) && pyStartswith " ".data line then
    procContent s.geneRec s.metRec (pyStrip line) s
  else some ⟨false, false, s.genes, s.mets⟩

/-- `get_pathway_data` minus the network fetch: parse one record text
into the pair (genes, metabolites); `none` models an uncaught
`IndexError`. -/
def get_pathway_data (data : List Char) : Option (Finset (List Char) × Finset (List Char)) :=
  (optFold procLine initRState (pySplitOn "\n".data data)).map fun s => (s.genes, s.mets)

/-! ## CatalogParser: `get_all_kegg_pathways` (src/app.py lines 33-40) -/

/-- Python `dict` assignment `d[k] = v`: overwrite in place if the key
exists, else append (insertion order preserved). -/
def dictInsert (d : List (List Char × List Char)) (k v : List Char) :
    List (List Char × List Char) :=
  if d.any (fun p => p.1 == k) then
    d.map fun p => if p.1 == k then (p.1, v) else p
  else d ++ [(k, v)]

/-- First element of a split result (`xs[0]`; `split` never returns an
empty list, so the default is unreachable). -/
def headOr (xs : List (List Char)) : List Char :=
  match xs with
  | [] => []
  | x :: _ => x

/-- One iteration of the catalog loop:
`pid, name_desc = line.split('\t'); name = name_desc.split(' - ')[0];
d[name] = pid.replace('path:', '')`. A split into anything other than
exactly two fields raises `ValueError`, hence `none`. -/
def catalogStep (d : List (List Char × List Char)) (line : List Char) :
    Option (List (List Char × List Char)) :=
  match pySplitOn "\t".data line with
  | [pid, nameDesc] =>
      some (dictInsert d (headOr (pySplitOn " - ".data nameDesc)) (pyReplace "path:".data [] pid))
  | _ => none

/-- `get_all_kegg_pathways` minus the network fetch: parse the raw
catalog text into the name-to-id mapping; `none` models the uncaught
`ValueError` aborting the load. -/
def get_all_kegg_pathways (raw : List Char) : Option (List (List Char × List Char)) :=
  optFold catalogStep [] (pySplitOn "\n".data (pyStrip raw))

/-! ## OverlapEngine (src/app.py lines 95-124)

`p2data = {n: get_pathway_data(options[n]) for n in sel}` is modelled as
an association list in selection order: each entry is a pathway name
paired with its (genes, metabolites). The Python sets are modelled by
the lists obtained by iterating them (a `Nodup` hypothesis states
set-ness where a claim needs it). -/

/-- `p2data`: selected pathway names, in selection order, each with its
gene list and metabolite list. -/
abbrev P2 := List (String × (List String × List String))

/-- The selected pathway names, in order (`sel` / dict key order). -/
def pnames (d : P2) : List String := d.map fun pr => pr.1

/-- `flat_genes = [g for genes in p2g.values() for g in genes]`. -/
def flat_genes (d : P2) : List String := d.flatMap fun pr => pr.2.1

/-- `flat_metabolites`, same shape for the metabolite kind. -/
def flat_mets (d : P2) : List String := d.flatMap fun pr => pr.2.2

/-- First-occurrence deduplication (the key order of a `Counter`);
`seen` accumulates keys already emitted. -/
def dedupAcc {α : Type} [BEq α] (seen : List α) : List α → List α
  | [] => []
  | x :: xs => if seen.contains x then dedupAcc seen xs else x :: dedupAcc (x :: seen) xs

/-- `Counter(l).items()`: each distinct element with its multiplicity,
keyed in first-occurrence order. -/
def counterItems {α : Type} [BEq α] [DecidableEq α] (l : List α) : List (α × Nat) :=
  (dedupAcc [] l).map fun x => (x, l.count x)

/-- `gene_counts = Counter(flat_genes)` as an items list. -/
def gene_counts (d : P2) : List (String × Nat) := counterItems (flat_genes d)

/-- `metabolite_counts = Counter(flat_metabolites)` as an items list. -/
def met_counts (d : P2) : List (String × Nat) := counterItems (flat_mets d)

/-- `genes_by_freq = {cnt: [g for g, c in gene_counts.items() if c == cnt]
for cnt in range(2, len(sel) + 1)}`. -/
def genes_by_freq (d : P2) : List (Nat × List String) :=
  (List.range' 2 (d.length - 1)).map fun cnt =>
    (cnt, (gene_counts d).filterMap fun it => if it.2 = cnt then some it.1 else none)

/-- `metabolites_by_freq`, same shape for the metabolite kind. -/
def mets_by_freq (d : P2) : List (Nat × List String) :=
  (List.range' 2 (d.length - 1)).map fun cnt =>
    (cnt, (met_counts d).filterMap fun it => if it.2 = cnt then some it.1 else none)

/-! ## GraphModelBuilder (src/app.py lines 148-167)

A networkx graph: an ordered association list of nodes (key, attribute
dict) plus a list of undirected edges. The node attribute dict can hold
`type`, `count` and (per the spec's claim; never set by the code) a
`category`; an absent attribute is `none`. `add_node` on an existing
key updates the attributes given and keeps the rest. -/

/-- The `type` attribute values used by the app. -/
inductive NType
  | pathway
  | gene
  | metabolite
  deriving DecidableEq

/-- A node's attribute dict. -/
structure Attrs where
  ntype : Option NType
  count : Option Nat
  category : Option String
  deriving DecidableEq

/-- A networkx graph as built by the app. -/
structure NXGraph where
  nodes : List (String × Attrs)
  edges : List (String × String)
  deriving DecidableEq

/-- `nx.Graph()`. -/
def emptyG : NXGraph := ⟨[], []⟩

/-- Does the graph already have a node with this key? -/
def hasNodeB (G : NXGraph) (k : String) : Bool := G.nodes.any fun p => p.1 == k

/-- `G.add_node(k, type=t)` when `c = none`;
`G.add_node(k, type=t, count=v)` when `c = some v`. On an existing key
the given attributes overwrite, the others are kept. -/
def addNode (G : NXGraph) (k : String) (t : NType) (c : Option Nat) : NXGraph :=
  if hasNodeB G k then
    { G with nodes := G.nodes.map fun p =>
        if p.1 == k then
          (p.1, ⟨some t, (match c with | some v => some v | none => p.2.count), p.2.category⟩)
        else p }
  else { G with nodes := G.nodes ++ [(k, ⟨some t, c, none⟩)] }

/-- A `for` loop of `add_node` calls of one type. -/
def addNodeList (G : NXGraph) (t : NType) (xs : List (String × Option Nat)) : NXGraph :=
  xs.foldl (fun G x => addNode G x.1 t x.2) G

/-- Is the undirected edge `{u, v}` present? -/
def edgeMem (G : NXGraph) (u v : String) : Bool :=
  G.edges.any fun e => (e.1 == u && e.2 == v) || (e.1 == v && e.2 == u)

/-- Create the node with an empty attribute dict if absent (what
`add_edge` does to a missing endpoint). -/
def ensureNode (G : NXGraph) (k : String) : NXGraph :=
  if hasNodeB G k then G else { G with nodes := G.nodes ++ [(k, ⟨none, none, none⟩)] }

/-- `G.add_edge(u, v)`: create missing endpoints with an empty attribute
dict, then add the undirected edge if absent. -/
def addEdge (G : NXGraph) (u v : String) : NXGraph :=
  let G2 := ensureNode (ensureNode G u) v
  if edgeMem G2 u v then G2 else { G2 with edges := G2.edges ++ [(u, v)] }

/-- `for x in xs: G.add_edge(p, x)`. -/
def addEdgeList (G : NXGraph) (p : String) (xs : List String) : NXGraph :=
  xs.foldl (fun G x => addEdge G p x) G

/-- `for p, xs in mapping.items(): for x in xs: G.add_edge(p, x)`. -/
def addMemberEdges (G : NXGraph) (pp : List (String × List String)) : NXGraph :=
  pp.foldl (fun G pr => addEdgeList G pr.1 pr.2) G

/-- `p2g.items()`. -/
def p2gL (d : P2) : List (String × List String) := d.map fun pr => (pr.1, pr.2.1)

/-- `p2m.items()`. -/
def p2mL (d : P2) : List (String × List String) := d.map fun pr => (pr.1, pr.2.2)

/-- The three positions of the `view_choice` radio button. -/
inductive View
  | combined
  | genesOnly
  | metabolitesOnly
  deriving DecidableEq, Fintype

/-- The graph-population block (src/app.py lines 148-167): nodes for the
pathways, nodes carrying `count` for the identifiers of the kinds the
view shows, then one edge per membership pair. -/
def buildGraph (d : P2) : View → NXGraph
  | View.combined =>
      addMemberEdges (addMemberEdges
        (addNodeList
          (addNodeList
            (addNodeList emptyG NType.pathway ((pnames d).map fun n => (n, none)))
            NType.gene ((gene_counts d).map fun it => (it.1, some it.2)))
          NType.metabolite ((met_counts d).map fun it => (it.1, some it.2)))
        (p2gL d)) (p2mL d)
  | View.genesOnly =>
      addMemberEdges
        (addNodeList
          (addNodeList emptyG NType.pathway ((pnames d).map fun n => (n, none)))
          NType.gene ((gene_counts d).map fun it => (it.1, some it.2)))
        (p2gL d)
  | View.metabolitesOnly =>
      addMemberEdges
        (addNodeList
          (addNodeList emptyG NType.pathway ((pnames d).map fun n => (n, none)))
          NType.metabolite ((met_counts d).map fun it => (it.1, some it.2)))
        (p2mL d)

/-- Number of distinct pathway-type neighbours of the node keyed `k`. -/
def pathwayNeighborCount (G : NXGraph) (k : String) : Nat :=
  (G.nodes.filter fun p => p.2.ntype == some NType.pathway && edgeMem G k p.1).length

/-! ## Tokenization lemmas: `line_cont.strip().split()` = `line_cont.split()` -/

theorem splitWsAux_spaces (sp : List Char) (h : ∀ c ∈ sp, pyIsSpace c = true) (acc : List Char) :
    splitWsAux sp acc = if acc.isEmpty then [] else [acc.reverse] := by
  induction sp generalizing acc with
  | nil => rfl
  | cons c sp ih =>
    have hc : pyIsSpace c = true := h c (List.mem_cons_self c sp)
    have hsp : ∀ x ∈ sp, pyIsSpace x = true := fun x hx => h x (List.mem_cons_of_mem c hx)
    by_cases ha : acc.isEmpty
    · simp [splitWsAux, hc, ha, ih hsp]
    · simp [splitWsAux, hc, ha, ih hsp]

theorem splitWsAux_append_spaces (l sp : List Char) (h : ∀ c ∈ sp, pyIsSpace c = true)
    (acc : List Char) : splitWsAux (l ++ sp) acc = splitWsAux l acc := by
  induction l generalizing acc with
  | nil =>
    rw [List.nil_append, splitWsAux_spaces sp h acc]
    rfl
  | cons c l ih =>
    by_cases hc : pyIsSpace c
    · by_cases ha : acc.isEmpty <;> simp [splitWsAux, hc, ha, ih]
    · simp [splitWsAux, hc, ih]

theorem splitWsAux_trimLeft (l : List Char) : splitWsAux (trimLeft l) [] = splitWsAux l [] := by
  induction l with
  | nil => rfl
  | cons c l ih =>
    by_cases hc : pyIsSpace c
    · simpa [trimLeft, List.dropWhile_cons, hc, splitWsAux] using ih
    · simp [trimLeft, List.dropWhile_cons, hc]

theorem trimRight_decomp (l : List Char) :
    l = trimRight l ++ (l.reverse.takeWhile pyIsSpace).reverse ∧
      ∀ c ∈ (l.reverse.takeWhile pyIsSpace).reverse, pyIsSpace c = true := by
  constructor
  · conv_lhs => rw [← List.reverse_reverse l, ← List.takeWhile_append_dropWhile (p := pyIsSpace)
      (l := l.reverse)]
    rw [List.reverse_append]
    rfl
  · intro c hc
    exact List.mem_takeWhile_imp (List.mem_reverse.mp hc)

/-- `s.strip().split()` tokenizes exactly as `s.split()`. -/
theorem pySplitWs_pyStrip (l : List Char) : pySplitWs (pyStrip l) = pySplitWs l := by
  unfold pySplitWs pyStrip
  obtain ⟨hdec, hsp⟩ := trimRight_decomp (trimLeft l)
  calc splitWsAux (trimRight (trimLeft l)) []
      = splitWsAux (trimRight (trimLeft l) ++ ((trimLeft l).reverse.takeWhile pyIsSpace).reverse)
          [] := (splitWsAux_append_spaces _ _ hsp []).symm
    _ = splitWsAux (trimLeft l) [] := by rw [← hdec]
    _ = splitWsAux l [] := splitWsAux_trimLeft l

/-- The content check and the token check collapse: processing a
continuation string is processing its whitespace tokens. -/
theorem procContent_eq_procTokens (g m : Bool) (lc : List Char) (s : RState) :
    procContent g m lc s = procTokens g m (pySplitWs lc) s := by
  cases lc with
  | nil => rfl
  | cons c rest => simp [procContent]

/-- Two char-list prefixes of the same list start with the same char. -/
theorem isPrefixOf_head_eq {a b : Char} {as bs l : List Char}
    (ha : (a :: as).isPrefixOf l = true) (hb : (b :: bs).isPrefixOf l = true) : a = b := by
  cases l with
  | nil => simp [List.isPrefixOf] at ha
  | cons c cs =>
    simp only [List.isPrefixOf, Bool.and_eq_true, beq_iff_eq] at ha hb
    exact ha.1.trans hb.1.symm

/-! ## Claims about the record parser -/

/-- C10: a line opens the gene (resp. metabolite) section whenever its
leading characters are `GENE` (resp. `COMPOUND`) — a raw string prefix,
so `GENES ...` or `GENE_X ...` also opens the section — and on such a
keyword line the tokens processed are those of the text from column 13
onward (the first 12 characters are dropped). -/
theorem section_keyword_raw_prefix_match (s : RState) (line : List Char) :
    (pyStartswith "GENE".data line = true →
      procLine s line = procTokens true false (pySplitWs (line.drop 12)) s) ∧
    (pyStartswith "COMPOUND".data line = true →
      procLine s line = procTokens false true (pySplitWs (line.drop 12)) s) := by
  constructor
  · intro h
    unfold procLine
    rw [if_pos h, procContent_eq_procTokens, pySplitWs_pyStrip]
  · intro h
    have hg : ¬ pyStartswith "GENE".data line = true := by
      intro hG
      have : 'G' = 'C' := @isPrefixOf_head_eq 'G' 'C' "ENE".data "OMPOUND".data line hG h
      simp at this
    unfold procLine
    rw [if_neg hg, if_pos h, procContent_eq_procTokens, pySplitWs_pyStrip]

/-- Witness for C10: the line `GENES       673  BRAF` has `GENE` as a raw
prefix and is processed as a gene keyword line with content from
column 13. -/
theorem section_keyword_raw_prefix_match_witness :
    pyStartswith "GENE".data "GENES       673  BRAF".data = true ∧
    procLine initRState "GENES       673  BRAF".data =
      procTokens true false (pySplitWs ("GENES       673  BRAF".data.drop 12)) initRState :=
  ⟨by decide, (section_keyword_raw_prefix_match initRState "GENES       673  BRAF".data).1
    (by decide)⟩

/-- C1 (counterexample): in the scenario record the captured gene set is
`{"BRAF;"}`, with the trailing `;` kept — not `{"BRAF"}` as claimed. -/
theorem braf_scenario_keeps_semicolon :
    (get_pathway_data ("GENE        673  BRAF; B-raf...\n            K04365  note").data).map
        (fun p => p.1) = some {"BRAF;".data} ∧
    some ({"BRAF;".data} : Finset (List Char)) ≠ some ({"BRAF".data} : Finset (List Char)) := by
  decide

/-- C1 (amended): in the gene section, a continuation line whose first
whitespace token is purely numeric has its second token added to the
gene set verbatim (no trailing-`;` stripping); in the scenario record
the gene set is exactly `{"BRAF;"}`. -/
theorem gene_entry_added_verbatim (s : RState) (line p0 p1 : List Char)
    (rest : List (List Char)) (hg : s.geneRec = true)
    (hsp : pyStartswith " ".data line = true)
    (htok : pySplitWs line = p0 :: p1 :: rest) (hd : pyIsdigit p0 = true) :
    procLine s line = some ⟨s.geneRec, s.metRec, insert p1 s.genes, s.mets⟩ ∧
    get_pathway_data ("GENE        673  BRAF; B-raf...\n            K04365  note").data =
      some ({"BRAF;".data}, ∅) := by
  refine ⟨?_, by decide⟩
  have hG : ¬ pyStartswith "GENE".data line = true := by
    intro hG
    have : 'G' = ' ' := @isPrefixOf_head_eq 'G' ' ' "ENE".data [] line hG hsp
    simp at this
  have hC : ¬ pyStartswith "COMPOUND".data line = true := by
    intro hC
    have : 'C' = ' ' := @isPrefixOf_head_eq 'C' ' ' "OMPOUND".data [] line hC hsp
    simp at this
  unfold procLine
  rw [if_neg hG, if_neg hC, if_pos (by simp [hg, hsp]), procContent_eq_procTokens,
    pySplitWs_pyStrip, htok]
  simp [procTokens, hg, hd]

/-- Witness for C1 (amended) at a concrete gene-section continuation. -/
theorem gene_entry_added_verbatim_witness :
    procLine ⟨true, false, ∅, ∅⟩ "            673  BRAF;".data =
      some ⟨true, false, insert "BRAF;".data (∅ : Finset (List Char)), ∅⟩ ∧
    get_pathway_data ("GENE        673  BRAF; B-raf...\n            K04365  note").data =
      some ({"BRAF;".data}, ∅) :=
  gene_entry_added_verbatim ⟨true, false, ∅, ∅⟩ "            673  BRAF;".data
    "673".data "BRAF;".data [] rfl (by decide) (by decide) (by decide)

/-- C2 (code bug): a gene-section line whose only token is numeric makes
`genes.add(parts[1])` index out of bounds — the parser fails
(`IndexError`) instead of skipping the line. -/
theorem numeric_only_gene_line_raises :
    get_pathway_data "GENE        673".data = none := by decide

/-! ## Claims about the catalog parsing -/

/-- Fuelled worker for `specBeforeSep`. -/
def specBeforeSepAux (sep : List Char) : Nat → List Char → List Char
  | _, [] => []
  | 0, s => s
  | fuel + 1, c :: rest =>
    if sep.isPrefixOf (c :: rest) then [] else c :: specBeforeSepAux sep fuel rest

/-- Spec-side definition: the portion of a string before the first
occurrence of the separator (the whole string when the separator does
not occur). -/
def specBeforeSep (sep s : List Char) : List Char := specBeforeSepAux sep s.length s

/-- Does `pat` occur as a contiguous substring? -/
def isSubstr (pat : List Char) : List Char → Bool
  | [] => pat.isEmpty
  | c :: rest => pat.isPrefixOf (c :: rest) || isSubstr pat rest

/-- Spec-side definition: the first field with the literal prefix
`path:` stripped (and only a leading prefix). -/
def specStripPathPrefix (s : List Char) : List Char :=
  if "path:".data.isPrefixOf s then s.drop 5 else s

theorem headOr_splitOnAux (sep : List Char) (fuel : Nat) (s acc : List Char) :
    headOr (splitOnAux sep fuel s acc) = acc.reverse ++ specBeforeSepAux sep fuel s := by
  induction fuel generalizing s acc with
  | zero => cases s <;> simp [splitOnAux, specBeforeSepAux, headOr]
  | succ fuel ih =>
    cases s with
    | nil => simp [splitOnAux, specBeforeSepAux, headOr]
    | cons c rest =>
      by_cases hpre : sep.isPrefixOf (c :: rest)
      · simp [splitOnAux, specBeforeSepAux, hpre, headOr]
      · simp only [splitOnAux, if_neg hpre, specBeforeSepAux]
        rw [ih rest (c :: acc)]
        simp

/-- `name_desc.split(' - ')[0]` is exactly the portion of `name_desc`
before the first `" - "`. -/
theorem headOr_pySplitOn (sep s : List Char) :
    headOr (pySplitOn sep s) = specBeforeSep sep s := by
  simpa using headOr_splitOnAux sep s.length s []

theorem specBeforeSepAux_of_not_substr (sep : List Char) (fuel : Nat) (s : List Char)
    (h : isSubstr sep s = false) : specBeforeSepAux sep fuel s = s := by
  induction fuel generalizing s with
  | zero => cases s <;> rfl
  | succ fuel ih =>
    cases s with
    | nil => rfl
    | cons c rest =>
      rw [isSubstr, Bool.or_eq_false_iff] at h
      rw [specBeforeSepAux, if_neg (by simp [h.1]), ih rest h.2]

/-- A second field containing no separator yields the whole field. -/
theorem specBeforeSep_of_not_substr (sep s : List Char) (h : isSubstr sep s = false) :
    specBeforeSep sep s = s :=
  specBeforeSepAux_of_not_substr sep s.length s h

/-- C7 (counterexample): the id stored for the line
`apath:hsa05210\tX - Y` is `ahsa05210` — every occurrence of `path:` is
removed (`str.replace`) — while stripping a literal *prefix* `path:`
would leave `apath:hsa05210` unchanged. -/
theorem catalog_replace_is_not_prefix_strip :
    get_all_kegg_pathways "apath:hsa05210\tX - Y".data =
      some [("X".data, "ahsa05210".data)] ∧
    specStripPathPrefix "apath:hsa05210".data = "apath:hsa05210".data ∧
    "ahsa05210".data ≠ "apath:hsa05210".data := by decide

/-- C7 (amended): a catalog line that tab-splits into two fields maps
the portion of the second field before the first `" - "` to the first
field with every occurrence of `path:` removed (which equals prefix
stripping for well-formed `path:`-prefixed ids); the claim's scenario
line parses to `{"Pancreatic cancer": "hsa05210"}` and a second field
with no separator yields the whole field as the name. -/
theorem catalog_line_maps_name_to_id (d0 : List (List Char × List Char))
    (line pid nameDesc : List Char)
    (h : pySplitOn "\t".data line = [pid, nameDesc]) :
    catalogStep d0 line =
      some (dictInsert d0 (specBeforeSep " - ".data nameDesc)
        (pyReplace "path:".data [] pid)) ∧
    (isSubstr " - ".data nameDesc = false → specBeforeSep " - ".data nameDesc = nameDesc) ∧
    get_all_kegg_pathways "path:hsa05210\tPancreatic cancer - Homo sapiens (human)".data =
      some [("Pancreatic cancer".data, "hsa05210".data)] := by
  refine ⟨?_, specBeforeSep_of_not_substr " - ".data nameDesc, by decide⟩
  unfold catalogStep
  rw [h]
  show some (dictInsert d0 (headOr (pySplitOn " - ".data nameDesc))
    (pyReplace "path:".data [] pid)) = _
  rw [headOr_pySplitOn]

/-- Witness for C7 (amended) at a concrete two-field line. -/
theorem catalog_line_maps_name_to_id_witness :
    catalogStep [] "path:b1\tB - C".data =
      some (dictInsert [] (specBeforeSep " - ".data "B - C".data)
        (pyReplace "path:".data [] "path:b1".data)) ∧
    (isSubstr " - ".data "B - C".data = false →
      specBeforeSep " - ".data "B - C".data = "B - C".data) ∧
    get_all_kegg_pathways "path:hsa05210\tPancreatic cancer - Homo sapiens (human)".data =
      some [("Pancreatic cancer".data, "hsa05210".data)] :=
  catalog_line_maps_name_to_id [] "path:b1\tB - C".data "path:b1".data "B - C".data (by decide)

theorem optFold_catalog_none (lines : List (List Char)) (d : List (List Char × List Char))
    (h : ∃ line ∈ lines, (pySplitOn "\t".data line).length ≠ 2) :
    optFold catalogStep d lines = none := by
  induction lines generalizing d with
  | nil => simp at h
  | cons l rest ih =>
    rcases h with ⟨x, hx, hlen⟩
    rcases List.mem_cons.mp hx with rfl | hx'
    · have hstep : catalogStep d x = none := by
        unfold catalogStep
        cases hsplit : pySplitOn "\t".data x with
        | nil => rfl
        | cons a tl =>
          cases tl with
          | nil => rfl
          | cons b tl2 =>
            cases tl2 with
            | nil => exact absurd (by rw [hsplit]; rfl) hlen
            | cons c tl3 => rfl
      rw [optFold, hstep]
    · cases hstep : catalogStep d l with
      | none => rw [optFold, hstep]
      | some d' =>
        rw [optFold, hstep]
        exact ih d' ⟨x, hx', hlen⟩

theorem optFold_catalog_some (lines : List (List Char)) (d : List (List Char × List Char))
    (h : ∀ line ∈ lines, (pySplitOn "\t".data line).length = 2) :
    (optFold catalogStep d lines).isSome = true := by
  induction lines generalizing d with
  | nil => rfl
  | cons l rest ih =>
    have hl := h l (List.mem_cons_self l rest)
    cases hsplit : pySplitOn "\t".data l with
    | nil => rw [hsplit] at hl; simp at hl
    | cons a tl =>
      cases tl with
      | nil => rw [hsplit] at hl; simp at hl
      | cons b tl2 =>
        cases tl2 with
        | nil =>
          have hstep : catalogStep d l =
              some (dictInsert d (headOr (pySplitOn " - ".data b))
                (pyReplace "path:".data [] a)) := by
            unfold catalogStep
            rw [hsplit]
          rw [optFold, hstep]
          exact ih _ fun x hx => h x (List.mem_cons_of_mem l hx)
        | cons c tl3 => rw [hsplit] at hl; simp at hl

/-- C8: a catalog line that does not tab-split into exactly two fields
aborts the whole load (`ValueError`, modelled as `none`); when every
line splits into exactly two fields the load succeeds. -/
theorem catalog_malformed_line_aborts (raw : List Char) :
    ((∃ line ∈ pySplitOn "\n".data (pyStrip raw), (pySplitOn "\t".data line).length ≠ 2) →
      get_all_kegg_pathways raw = none) ∧
    ((∀ line ∈ pySplitOn "\n".data (pyStrip raw), (pySplitOn "\t".data line).length = 2) →
      (get_all_kegg_pathways raw).isSome = true) :=
  ⟨fun h => optFold_catalog_none _ _ h, fun h => optFold_catalog_some _ _ h⟩

/-- Witness for C8: a malformed second line aborts; a well-formed
catalog succeeds. -/
theorem catalog_malformed_line_aborts_witness :
    get_all_kegg_pathways "path:a\tN - D\nbadline".data = none ∧
    (get_all_kegg_pathways "path:a\tN - D\npath:b\tM - E".data).isSome = true :=
  ⟨(catalog_malformed_line_aborts "path:a\tN - D\nbadline".data).1
      ⟨"badline".data, by decide, by decide⟩,
    (catalog_malformed_line_aborts "path:a\tN - D\npath:b\tM - E".data).2 (by decide)⟩

/-! ## Claims about the overlap engine -/

/-- Flattening per-pathway identifier sets (`Nodup` lists) and counting
multiplicities counts the pathways whose set contains the identifier. -/
theorem count_flat_proj {f : String × (List String × List String) → List String} (d : P2)
    (h : ∀ pr ∈ d, (f pr).Nodup) (x : String) :
    (d.flatMap f).count x = (d.filter fun pr => decide (x ∈ f pr)).length := by
  induction d with
  | nil => rfl
  | cons pr rest ih =>
    have hnd : (f pr).Nodup := h pr (List.mem_cons_self pr rest)
    have hrest : ∀ q ∈ rest, (f q).Nodup := fun q hq => h q (List.mem_cons_of_mem pr hq)
    rw [List.flatMap_cons, List.count_append, ih hrest]
    by_cases hx : x ∈ f pr
    · rw [List.count_eq_one_of_mem hnd hx, List.filter_cons_of_pos (by simpa using hx)]
      simp [Nat.add_comm]
    · rw [List.count_eq_zero_of_not_mem hx, List.filter_cons_of_neg (by simpa using hx)]
      simp

/-- Every member of `List.range' s n` is at least `s`. -/
theorem le_of_mem_range' {s n m : Nat} (h : m ∈ List.range' s n) : s ≤ m := by
  induction n generalizing s with
  | zero => simp [List.range'] at h
  | succ n ih =>
    rcases List.mem_cons.mp h with rfl | h'
    · exact Nat.le_refl m
    · exact Nat.le_of_succ_le (ih h')

/-- C3: each frequency in the `Counter` items equals the number of
selected pathways whose (duplicate-free) set of that kind contains the
identifier, and every bucket of the by-frequency tables is keyed by a
frequency ≥ 2 and lists only identifiers whose computed frequency is
that key — for both kinds. -/
theorem overlap_frequency_exact (d : P2) (hn : (pnames d).Nodup)
    (hg : ∀ pr ∈ d, pr.2.1.Nodup) (hm : ∀ pr ∈ d, pr.2.2.Nodup) :
    (∀ it ∈ gene_counts d, it.2 = (d.filter fun pr => decide (it.1 ∈ pr.2.1)).length) ∧
    (∀ it ∈ met_counts d, it.2 = (d.filter fun pr => decide (it.1 ∈ pr.2.2)).length) ∧
    (∀ b ∈ genes_by_freq d, 2 ≤ b.1 ∧ ∀ g ∈ b.2, (g, b.1) ∈ gene_counts d) ∧
    (∀ b ∈ mets_by_freq d, 2 ≤ b.1 ∧ ∀ g ∈ b.2, (g, b.1) ∈ met_counts d) := by
  have hcount : ∀ it ∈ gene_counts d,
      it.2 = (d.filter fun pr => decide (it.1 ∈ pr.2.1)).length := by
    intro it hit
    rcases List.mem_map.mp hit with ⟨x, _, rfl⟩
    exact count_flat_proj d hg x
  have mcount : ∀ it ∈ met_counts d,
      it.2 = (d.filter fun pr => decide (it.1 ∈ pr.2.2)).length := by
    intro it hit
    rcases List.mem_map.mp hit with ⟨x, _, rfl⟩
    exact count_flat_proj d hm x
  refine ⟨hcount, mcount, ?_, ?_⟩
  · intro b hb
    rcases List.mem_map.mp hb with ⟨cnt, hcnt, rfl⟩
    refine ⟨le_of_mem_range' hcnt, ?_⟩
    intro g hgmem
    rcases List.mem_filterMap.mp hgmem with ⟨it, hit, heq⟩
    by_cases hc : it.2 = cnt
    · rw [if_pos hc] at heq
      obtain rfl : it.1 = g := Option.some.inj heq
      rw [← hc]
      exact hit
    · rw [if_neg hc] at heq
      exact absurd heq (Option.noConfusion)
  · intro b hb
    rcases List.mem_map.mp hb with ⟨cnt, hcnt, rfl⟩
    refine ⟨le_of_mem_range' hcnt, ?_⟩
    intro g hgmem
    rcases List.mem_filterMap.mp hgmem with ⟨it, hit, heq⟩
    by_cases hc : it.2 = cnt
    · rw [if_pos hc] at heq
      obtain rfl : it.1 = g := Option.some.inj heq
      rw [← hc]
      exact hit
    · rw [if_neg hc] at heq
      exact absurd heq (Option.noConfusion)

/-- The witness input for C3: `TP53` in two of three pathways. -/
def dC3 : P2 :=
  [("PathA", (["TP53", "BRAF"], ["C00031"])), ("PathB", (["TP53"], [])), ("PathC", ([], ["C00031"]))]

/-- Witness for C3 at a concrete selection. -/
theorem overlap_frequency_exact_witness :
    (pnames dC3).Nodup ∧ (∀ pr ∈ dC3, pr.2.1.Nodup) ∧ (∀ pr ∈ dC3, pr.2.2.Nodup) ∧
    ((∀ it ∈ gene_counts dC3, it.2 = (dC3.filter fun pr => decide (it.1 ∈ pr.2.1)).length) ∧
      (∀ it ∈ met_counts dC3, it.2 = (dC3.filter fun pr => decide (it.1 ∈ pr.2.2)).length) ∧
      (∀ b ∈ genes_by_freq dC3, 2 ≤ b.1 ∧ ∀ g ∈ b.2, (g, b.1) ∈ gene_counts dC3) ∧
      (∀ b ∈ mets_by_freq dC3, 2 ≤ b.1 ∧ ∀ g ∈ b.2, (g, b.1) ∈ met_counts dC3)) :=
  ⟨by decide, by decide, by decide,
    overlap_frequency_exact dC3 (by decide) (by decide) (by decide)⟩

/-- C9: with zero or one selected pathway both by-frequency overlap
tables are empty (the bucket range `range(2, len(sel)+1)` is empty). -/
theorem few_pathways_empty_tables (d : P2) (h : d.length ≤ 1) :
    genes_by_freq d = [] ∧ mets_by_freq d = [] := by
  have h0 : d.length - 1 = 0 := by omega
  refine ⟨?_, ?_⟩ <;> simp [genes_by_freq, mets_by_freq, h0, List.range']

/-- Witness for C9 at a one-pathway selection. -/
theorem few_pathways_empty_tables_witness :
    ([("Pancreatic cancer", (["BRAF"], ["C00031"]))] : P2).length ≤ 1 ∧
    (genes_by_freq [("Pancreatic cancer", (["BRAF"], ["C00031"]))] = [] ∧
      mets_by_freq [("Pancreatic cancer", (["BRAF"], ["C00031"]))] = []) :=
  ⟨by decide, few_pathways_empty_tables _ (by decide)⟩

/-! ## Graph characterization

Collision-freedom hypotheses under which the networkx construction is
analysable: distinct pathway names, duplicate-free per-pathway sets,
and no node-key collision between the pathway-name, gene and
metabolite namespaces (the spec itself flags key collisions as a
latent gap). -/

/-- Well-formed builder input: distinct names, set-like identifier
lists, and the three node-key namespaces pairwise disjoint. -/
def GoodInput (d : P2) : Prop :=
  (pnames d).Nodup ∧
  (∀ pr ∈ d, pr.2.1.Nodup ∧ pr.2.2.Nodup) ∧
  (∀ g ∈ flat_genes d, g ∉ pnames d) ∧
  (∀ m ∈ flat_mets d, m ∉ pnames d) ∧
  (∀ g ∈ flat_genes d, g ∉ flat_mets d)

/-- Attribute dict of a pathway node as the code creates it. -/
def pAttrD : Attrs := ⟨some NType.pathway, none, none⟩

/-- Attribute dict of a gene node with `count=c`. -/
def gAttrD (c : Nat) : Attrs := ⟨some NType.gene, some c, none⟩

/-- Attribute dict of a metabolite node with `count=c`. -/
def mAttrD (c : Nat) : Attrs := ⟨some NType.metabolite, some c, none⟩

/-- The pathway-node entries, in selection order. -/
def pathNodes (d : P2) : List (String × Attrs) := (pnames d).map fun n => (n, pAttrD)

/-- The gene-node entries, in `Counter` key order. -/
def geneNodes (d : P2) : List (String × Attrs) := (gene_counts d).map fun it => (it.1, gAttrD it.2)

/-- The metabolite-node entries, in `Counter` key order. -/
def metNodes (d : P2) : List (String × Attrs) := (met_counts d).map fun it => (it.1, mAttrD it.2)

/-- The node list each view produces (proved below). -/
def nodesSpec (d : P2) : View → List (String × Attrs)
  | View.combined => pathNodes d ++ geneNodes d ++ metNodes d
  | View.genesOnly => pathNodes d ++ geneNodes d
  | View.metabolitesOnly => pathNodes d ++ metNodes d

/-- The distinct gene keys. -/
def geneKeys (d : P2) : List String := dedupAcc [] (flat_genes d)

/-- The distinct metabolite keys. -/
def metKeys (d : P2) : List String := dedupAcc [] (flat_mets d)

theorem mem_dedupAcc {α : Type} [BEq α] [LawfulBEq α] {l : List α} {x : α} :
    ∀ {seen : List α}, x ∈ dedupAcc seen l ↔ x ∈ l ∧ x ∉ seen := by
  induction l with
  | nil => intro seen; simp [dedupAcc]
  | cons y ys ih =>
    intro seen
    by_cases hy : seen.contains y
    · rw [dedupAcc, if_pos hy, ih]
      constructor
      · rintro ⟨h1, h2⟩
        exact ⟨List.mem_cons_of_mem _ h1, h2⟩
      · rintro ⟨h1, h2⟩
        rcases List.mem_cons.mp h1 with rfl | h1'
        · exact absurd (List.elem_iff.mp hy) h2
        · exact ⟨h1', h2⟩
    · rw [dedupAcc, if_neg hy]
      constructor
      · intro h
        rcases List.mem_cons.mp h with rfl | h'
        · exact ⟨List.mem_cons_self x ys, fun hs => hy (List.elem_iff.mpr hs)⟩
        · rcases ih.mp h' with ⟨h1, h2⟩
          exact ⟨List.mem_cons_of_mem _ h1, fun hs => h2 (List.mem_cons_of_mem _ hs)⟩
      · rintro ⟨h1, h2⟩
        rcases List.mem_cons.mp h1 with rfl | h1'
        · exact List.mem_cons_self x _
        · by_cases hxy : x = y
          · subst hxy
            exact List.mem_cons_self x _
          · refine List.mem_cons_of_mem _ (ih.mpr ⟨h1', ?_⟩)
            intro hs
            rcases List.mem_cons.mp hs with h | h
            · exact hxy h
            · exact h2 h

theorem nodup_dedupAcc {α : Type} [BEq α] [LawfulBEq α] (l : List α) :
    ∀ seen : List α, (dedupAcc seen l).Nodup := by
  induction l with
  | nil => intro seen; simp [dedupAcc]
  | cons y ys ih =>
    intro seen
    by_cases hy : seen.contains y
    · rw [dedupAcc, if_pos hy]
      exact ih seen
    · rw [dedupAcc, if_neg hy]
      refine List.nodup_cons.mpr ⟨?_, ih (y :: seen)⟩
      intro hmem
      exact (mem_dedupAcc.mp hmem).2 (List.mem_cons_self y seen)

theorem map_fst_counterItems {α : Type} [BEq α] [DecidableEq α] (l : List α) :
    (counterItems l).map Prod.fst = dedupAcc [] l := by
  unfold counterItems
  rw [List.map_map]
  rw [show (Prod.fst ∘ fun x : α => (x, l.count x)) = id from funext fun x => rfl, List.map_id]

theorem mem_counterItems_iff {α : Type} [BEq α] [LawfulBEq α] [DecidableEq α]
    {l : List α} {x : α} {c : Nat} :
    (x, c) ∈ counterItems l ↔ x ∈ l ∧ c = l.count x := by
  constructor
  · intro h
    rcases List.mem_map.mp h with ⟨y, hy, heq⟩
    have h1 : y = x := congrArg Prod.fst heq
    have h2 : l.count y = c := congrArg Prod.snd heq
    subst h1
    exact ⟨(mem_dedupAcc.mp hy).1, h2.symm⟩
  · rintro ⟨hx, rfl⟩
    have hmem : x ∈ dedupAcc ([] : List α) l := mem_dedupAcc.mpr ⟨hx, List.not_mem_nil x⟩
    exact List.mem_map.mpr ⟨x, hmem, rfl⟩

theorem hasNodeB_iff {G : NXGraph} {k : String} :
    hasNodeB G k = true ↔ k ∈ G.nodes.map Prod.fst := by
  simp only [hasNodeB, List.any_eq_true, beq_iff_eq, List.mem_map]

theorem addNode_fresh {G : NXGraph} {k : String} (t : NType) (c : Option Nat)
    (h : hasNodeB G k = false) :
    addNode G k t c = ⟨G.nodes ++ [(k, ⟨some t, c, none⟩)], G.edges⟩ := by
  simp [addNode, h]

theorem addNodeList_edges (G : NXGraph) (t : NType) (xs : List (String × Option Nat)) :
    (addNodeList G t xs).edges = G.edges := by
  induction xs generalizing G with
  | nil => rfl
  | cons x xs ih =>
    show (addNodeList (addNode G x.1 t x.2) t xs).edges = G.edges
    rw [ih]
    unfold addNode
    by_cases h : hasNodeB G x.1 <;> simp [h]

theorem addNodeList_fresh (t : NType) (xs : List (String × Option Nat)) :
    ∀ G : NXGraph, (xs.map Prod.fst).Nodup → (∀ x ∈ xs, hasNodeB G x.1 = false) →
      addNodeList G t xs = ⟨G.nodes ++ xs.map (fun x => (x.1, ⟨some t, x.2, none⟩)), G.edges⟩ := by
  induction xs with
  | nil =>
    intro G _ _
    show G = _
    cases G
    simp [addNodeList]
  | cons x xs ih =>
    intro G hnd hfresh
    show addNodeList (addNode G x.1 t x.2) t xs = _
    rw [addNode_fresh t x.2 (hfresh x (List.mem_cons_self x xs))]
    have hnd' : (xs.map Prod.fst).Nodup := (List.nodup_cons.mp hnd).2
    have hx_not : x.1 ∉ xs.map Prod.fst := (List.nodup_cons.mp hnd).1
    have hfresh' : ∀ y ∈ xs,
        hasNodeB ⟨G.nodes ++ [(x.1, ⟨some t, x.2, none⟩)], G.edges⟩ y.1 = false := by
      intro y hy
      rw [← Bool.not_eq_true, hasNodeB_iff]
      simp only [List.map_append, List.mem_append, List.map_cons, List.map_nil]
      rintro (hmem | hmem)
      · have := hfresh y (List.mem_cons_of_mem x hy)
        rw [← Bool.not_eq_true, hasNodeB_iff] at this
        exact this hmem
      · simp only [List.mem_singleton] at hmem
        exact hx_not (hmem ▸ List.mem_map_of_mem Prod.fst hy)
    rw [ih _ hnd' hfresh']
    simp

theorem hasNodeB_congr {G G' : NXGraph} (h : G.nodes = G'.nodes) (k : String) :
    hasNodeB G k = hasNodeB G' k := by
  unfold hasNodeB
  rw [h]

theorem ensureNode_edges (G : NXGraph) (k : String) : (ensureNode G k).edges = G.edges := by
  unfold ensureNode
  split <;> rfl

theorem ensureNode_of_has {G : NXGraph} {k : String} (h : hasNodeB G k = true) :
    ensureNode G k = G := by
  unfold ensureNode
  rw [if_pos h]

theorem edgeMem_congr {G G' : NXGraph} (h : G.edges = G'.edges) (a b : String) :
    edgeMem G a b = edgeMem G' a b := by
  unfold edgeMem
  rw [h]

theorem addEdge_edges (G : NXGraph) (u v : String) :
    (addEdge G u v).edges =
      if edgeMem G u v then G.edges else G.edges ++ [(u, v)] := by
  have he : (ensureNode (ensureNode G u) v).edges = G.edges := by
    rw [ensureNode_edges, ensureNode_edges]
  unfold addEdge
  simp only [edgeMem_congr he u v]
  split <;> simp [he]

theorem addEdge_nodes {G : NXGraph} {u v : String} (hu : hasNodeB G u = true)
    (hv : hasNodeB G v = true) : (addEdge G u v).nodes = G.nodes := by
  unfold addEdge
  rw [ensureNode_of_has hu, ensureNode_of_has hv]
  show (if edgeMem G u v = true then G
    else { nodes := G.nodes, edges := G.edges ++ [(u, v)] }).nodes = G.nodes
  split <;> rfl

theorem edgeMem_iff {G : NXGraph} {a b : String} :
    edgeMem G a b = true ↔
      ∃ e ∈ G.edges, (e.1 = a ∧ e.2 = b) ∨ (e.1 = b ∧ e.2 = a) := by
  simp [edgeMem, List.any_eq_true]

theorem addEdge_edgeMem {G : NXGraph} {u v a b : String} :
    edgeMem (addEdge G u v) a b = true ↔
      edgeMem G a b = true ∨ (a = u ∧ b = v) ∨ (a = v ∧ b = u) := by
  have hE := addEdge_edges G u v
  by_cases h : edgeMem G u v
  · rw [if_pos h] at hE
    rw [edgeMem_congr hE a b]
    constructor
    · exact Or.inl
    · rintro (hab | ⟨rfl, rfl⟩ | ⟨rfl, rfl⟩)
      · exact hab
      · exact h
      · rw [edgeMem_iff] at h ⊢
        rcases h with ⟨e, he, hcase⟩
        exact ⟨e, he, hcase.symm⟩
  · rw [if_neg h] at hE
    rw [edgeMem_iff]
    rw [hE]
    rw [show (edgeMem G a b = true) ↔ _ from edgeMem_iff]
    constructor
    · rintro ⟨e, he, hcase⟩
      rcases List.mem_append.mp he with he' | he'
      · exact Or.inl ⟨e, he', hcase⟩
      · simp only [List.mem_singleton] at he'
        subst he'
        rcases hcase with ⟨h1, h2⟩ | ⟨h1, h2⟩
        · exact Or.inr (Or.inl ⟨h1.symm, h2.symm⟩)
        · exact Or.inr (Or.inr ⟨h2.symm, h1.symm⟩)
    · rintro (⟨e, he, hcase⟩ | ⟨rfl, rfl⟩ | ⟨rfl, rfl⟩)
      · exact ⟨e, List.mem_append_left _ he, hcase⟩
      · exact ⟨(a, b), List.mem_append_right _ (List.mem_singleton_self _), Or.inl ⟨rfl, rfl⟩⟩
      · exact ⟨(b, a), List.mem_append_right _ (List.mem_singleton_self _), Or.inr ⟨rfl, rfl⟩⟩

theorem addEdgeList_nodes (p : String) (xs : List String) :
    ∀ G : NXGraph, hasNodeB G p = true → (∀ x ∈ xs, hasNodeB G x = true) →
      (addEdgeList G p xs).nodes = G.nodes := by
  induction xs with
  | nil => intro G _ _; rfl
  | cons x xs ih =>
    intro G hp hxs
    show (addEdgeList (addEdge G p x) p xs).nodes = G.nodes
    have hnodes : (addEdge G p x).nodes = G.nodes :=
      addEdge_nodes hp (hxs x (List.mem_cons_self x xs))
    rw [ih (addEdge G p x) (by rw [hasNodeB_congr hnodes]; exact hp)
      (fun y hy => by rw [hasNodeB_congr hnodes]; exact hxs y (List.mem_cons_of_mem x hy))]
    exact hnodes

theorem addEdgeList_edgeMem (p : String) (xs : List String) (a b : String) :
    ∀ G : NXGraph, edgeMem (addEdgeList G p xs) a b = true ↔
      edgeMem G a b = true ∨ ∃ x ∈ xs, (a = p ∧ b = x) ∨ (a = x ∧ b = p) := by
  induction xs with
  | nil =>
    intro G
    simp [addEdgeList]
  | cons x xs ih =>
    intro G
    show edgeMem (addEdgeList (addEdge G p x) p xs) a b = true ↔ _
    rw [ih (addEdge G p x)]
    constructor
    · rintro (hmem | ⟨y, hy, hcase⟩)
      · rcases addEdge_edgeMem.mp hmem with h | h | h
        · exact Or.inl h
        · exact Or.inr ⟨x, List.mem_cons_self x xs, Or.inl h⟩
        · exact Or.inr ⟨x, List.mem_cons_self x xs, Or.inr h⟩
      · exact Or.inr ⟨y, List.mem_cons_of_mem x hy, hcase⟩
    · rintro (h | ⟨y, hy, hcase⟩)
      · exact Or.inl (addEdge_edgeMem.mpr (Or.inl h))
      · rcases List.mem_cons.mp hy with rfl | hy'
        · rcases hcase with h' | h'
          · exact Or.inl (addEdge_edgeMem.mpr (Or.inr (Or.inl h')))
          · exact Or.inl (addEdge_edgeMem.mpr (Or.inr (Or.inr h')))
        · exact Or.inr ⟨y, hy', hcase⟩

theorem addMemberEdges_nodes (pp : List (String × List String)) :
    ∀ G : NXGraph,
      (∀ pr ∈ pp, hasNodeB G pr.1 = true ∧ ∀ x ∈ pr.2, hasNodeB G x = true) →
      (addMemberEdges G pp).nodes = G.nodes := by
  induction pp with
  | nil => intro G _; rfl
  | cons pr pp ih =>
    intro G h
    show (addMemberEdges (addEdgeList G pr.1 pr.2) pp).nodes = G.nodes
    have h0 := h pr (List.mem_cons_self pr pp)
    have hnodes : (addEdgeList G pr.1 pr.2).nodes = G.nodes :=
      addEdgeList_nodes pr.1 pr.2 G h0.1 h0.2
    rw [ih (addEdgeList G pr.1 pr.2) ?_]
    · exact hnodes
    · intro q hq
      have hqG := h q (List.mem_cons_of_mem pr hq)
      exact ⟨by rw [hasNodeB_congr hnodes]; exact hqG.1,
        fun x hx => by rw [hasNodeB_congr hnodes]; exact hqG.2 x hx⟩

theorem addMemberEdges_edgeMem (pp : List (String × List String)) (a b : String) :
    ∀ G : NXGraph, edgeMem (addMemberEdges G pp) a b = true ↔
      edgeMem G a b = true ∨
        ∃ pr ∈ pp, ∃ x ∈ pr.2, (a = pr.1 ∧ b = x) ∨ (a = x ∧ b = pr.1) := by
  induction pp with
  | nil =>
    intro G
    simp [addMemberEdges]
  | cons pr pp ih =>
    intro G
    show edgeMem (addMemberEdges (addEdgeList G pr.1 pr.2) pp) a b = true ↔ _
    rw [ih (addEdgeList G pr.1 pr.2)]
    rw [addEdgeList_edgeMem]
    constructor
    · rintro ((h | ⟨x, hx, hcase⟩) | ⟨q, hq, hrest⟩)
      · exact Or.inl h
      · exact Or.inr ⟨pr, List.mem_cons_self pr pp, x, hx, hcase⟩
      · exact Or.inr ⟨q, List.mem_cons_of_mem pr hq, hrest⟩
    · rintro (h | ⟨q, hq, x, hx, hcase⟩)
      · exact Or.inl (Or.inl h)
      · rcases List.mem_cons.mp hq with rfl | hq'
        · exact Or.inl (Or.inr ⟨x, hx, hcase⟩)
        · exact Or.inr ⟨q, hq', x, hx, hcase⟩

theorem map_pair_fst {α β : Type} (l : List α) (f : α → β) :
    (l.map fun a => (a, f a)).map Prod.fst = l := by
  rw [List.map_map, show (Prod.fst ∘ fun a : α => (a, f a)) = id from funext fun a => rfl,
    List.map_id]

theorem mem_geneKeys_iff {d : P2} {k : String} : k ∈ geneKeys d ↔ k ∈ flat_genes d := by
  unfold geneKeys
  rw [mem_dedupAcc]
  simp

theorem mem_metKeys_iff {d : P2} {k : String} : k ∈ metKeys d ↔ k ∈ flat_mets d := by
  unfold metKeys
  rw [mem_dedupAcc]
  simp

theorem map_fst_pathNodes (d : P2) : (pathNodes d).map Prod.fst = pnames d :=
  map_pair_fst (pnames d) fun _ => pAttrD

theorem map_fst_geneNodes (d : P2) : (geneNodes d).map Prod.fst = geneKeys d := by
  unfold geneNodes
  rw [List.map_map, show (Prod.fst ∘ fun it : String × Nat => (it.1, gAttrD it.2)) = Prod.fst
    from funext fun it => rfl]
  unfold gene_counts
  rw [map_fst_counterItems]
  rfl

theorem map_fst_metNodes (d : P2) : (metNodes d).map Prod.fst = metKeys d := by
  unfold metNodes
  rw [List.map_map, show (Prod.fst ∘ fun it : String × Nat => (it.1, mAttrD it.2)) = Prod.fst
    from funext fun it => rfl]
  unfold met_counts
  rw [map_fst_counterItems]
  rfl

/-- The pathway-node loop on the empty graph. -/
theorem pathPhase (d : P2) (h1 : (pnames d).Nodup) :
    addNodeList emptyG NType.pathway ((pnames d).map fun n => (n, none)) =
      ⟨pathNodes d, []⟩ := by
  rw [addNodeList_fresh NType.pathway _ emptyG
    (by rw [map_pair_fst]; exact h1) (fun x _ => rfl)]
  show NXGraph.mk ([] ++ _) [] = _
  rw [List.nil_append, List.map_map]
  rw [show ((fun x : String × Option Nat => (x.1, (⟨some NType.pathway, x.2, none⟩ : Attrs)))
    ∘ fun n : String => (n, (none : Option Nat))) = fun n => (n, pAttrD) from funext fun n => rfl]
  rfl

/-- An identifier-node loop over `Counter` items on a graph whose node
keys avoid all the item keys. -/
theorem idPhase (t : NType) (items : List (String × Nat)) (N : List (String × Attrs))
    (hnd : (items.map Prod.fst).Nodup)
    (hfresh : ∀ k ∈ items.map Prod.fst, k ∉ N.map Prod.fst) :
    addNodeList ⟨N, []⟩ t (items.map fun it => (it.1, some it.2)) =
      ⟨N ++ items.map fun it => (it.1, (⟨some t, some it.2, none⟩ : Attrs)), []⟩ := by
  rw [addNodeList_fresh t _ ⟨N, []⟩ ?keys ?fresh]
  case keys =>
    rw [List.map_map, show (Prod.fst ∘ fun it : String × Nat => (it.1, some it.2)) = Prod.fst
      from funext fun it => rfl]
    exact hnd
  case fresh =>
    rintro x hx
    rcases List.mem_map.mp hx with ⟨it, hit, rfl⟩
    rw [← Bool.not_eq_true, hasNodeB_iff]
    exact hfresh it.1 (List.mem_map_of_mem Prod.fst hit)
  rw [List.map_map]
  rw [show ((fun x : String × Option Nat => (x.1, (⟨some t, x.2, none⟩ : Attrs)))
    ∘ fun it : String × Nat => (it.1, some it.2)) =
    fun it : String × Nat => (it.1, (⟨some t, some it.2, none⟩ : Attrs))
    from funext fun it => rfl]

/-- Gene-membership adjacency: the undirected edges the `p2g` loop adds. -/
def GEdge (d : P2) (a b : String) : Prop :=
  ∃ e ∈ d, (a = e.1 ∧ b ∈ e.2.1) ∨ (b = e.1 ∧ a ∈ e.2.1)

/-- Metabolite-membership adjacency: the edges the `p2m` loop adds. -/
def MEdge (d : P2) (a b : String) : Prop :=
  ∃ e ∈ d, (a = e.1 ∧ b ∈ e.2.2) ∨ (b = e.1 ∧ a ∈ e.2.2)

theorem pairEx_iff (p : String) (xs : List String) (a b : String) :
    (∃ x ∈ xs, (a = p ∧ b = x) ∨ (a = x ∧ b = p)) ↔
      (a = p ∧ b ∈ xs) ∨ (b = p ∧ a ∈ xs) := by
  constructor
  · rintro ⟨x, hx, ⟨rfl, rfl⟩ | ⟨rfl, rfl⟩⟩
    · exact Or.inl ⟨rfl, hx⟩
    · exact Or.inr ⟨rfl, hx⟩
  · rintro (⟨rfl, hb⟩ | ⟨rfl, ha⟩)
    · exact ⟨b, hb, Or.inl ⟨rfl, rfl⟩⟩
    · exact ⟨a, ha, Or.inr ⟨rfl, rfl⟩⟩

theorem memberPairs_iff (d : P2) (f : String × (List String × List String) → List String)
    (a b : String) :
    (∃ pr ∈ d.map fun e => (e.1, f e), ∃ x ∈ pr.2, (a = pr.1 ∧ b = x) ∨ (a = x ∧ b = pr.1)) ↔
      ∃ e ∈ d, (a = e.1 ∧ b ∈ f e) ∨ (b = e.1 ∧ a ∈ f e) := by
  constructor
  · rintro ⟨pr, hpr, hx⟩
    rcases List.mem_map.mp hpr with ⟨e, he, rfl⟩
    rcases (pairEx_iff _ _ a b).mp hx with h | h
    · exact ⟨e, he, Or.inl h⟩
    · exact ⟨e, he, Or.inr h⟩
  · rintro ⟨e, he, hcase⟩
    exact ⟨(e.1, f e), List.mem_map_of_mem _ he, (pairEx_iff _ _ a b).mpr hcase⟩

/-- The edge set of each view, independent of any well-formedness
hypothesis: gene-membership pairs, metabolite-membership pairs, or
both. -/
theorem buildGraph_edgeMem (d : P2) (v : View) (a b : String) :
    edgeMem (buildGraph d v) a b = true ↔
      (match v with
        | View.combined => GEdge d a b ∨ MEdge d a b
        | View.genesOnly => GEdge d a b
        | View.metabolitesOnly => MEdge d a b) := by
  have hbase : ∀ (G : NXGraph), G.edges = [] → ¬ edgeMem G a b = true := by
    intro G hG hmem
    rcases edgeMem_iff.mp hmem with ⟨e, he, _⟩
    rw [hG] at he
    exact List.not_mem_nil e he
  cases v with
  | combined =>
    show edgeMem (addMemberEdges (addMemberEdges _ (p2gL d)) (p2mL d)) a b = true ↔ _
    rw [addMemberEdges_edgeMem, addMemberEdges_edgeMem]
    have h0 : ¬ edgeMem (addNodeList (addNodeList (addNodeList emptyG NType.pathway
        ((pnames d).map fun n => (n, none)))
        NType.gene ((gene_counts d).map fun it => (it.1, some it.2)))
        NType.metabolite ((met_counts d).map fun it => (it.1, some it.2))) a b = true :=
      hbase _ (by rw [addNodeList_edges, addNodeList_edges, addNodeList_edges]; rfl)
    rw [show p2gL d = d.map (fun e => (e.1, e.2.1)) from rfl,
      show p2mL d = d.map (fun e => (e.1, e.2.2)) from rfl,
      memberPairs_iff, memberPairs_iff]
    constructor
    · rintro ((h | h) | h)
      · exact absurd h h0
      · exact Or.inl h
      · exact Or.inr h
    · rintro (h | h)
      · exact Or.inl (Or.inr h)
      · exact Or.inr h
  | genesOnly =>
    show edgeMem (addMemberEdges _ (p2gL d)) a b = true ↔ _
    rw [addMemberEdges_edgeMem]
    have h0 : ¬ edgeMem (addNodeList (addNodeList emptyG NType.pathway
        ((pnames d).map fun n => (n, none)))
        NType.gene ((gene_counts d).map fun it => (it.1, some it.2))) a b = true :=
      hbase _ (by rw [addNodeList_edges, addNodeList_edges]; rfl)
    rw [show p2gL d = d.map (fun e => (e.1, e.2.1)) from rfl, memberPairs_iff]
    constructor
    · rintro (h | h)
      · exact absurd h h0
      · exact h
    · exact Or.inr
  | metabolitesOnly =>
    show edgeMem (addMemberEdges _ (p2mL d)) a b = true ↔ _
    rw [addMemberEdges_edgeMem]
    have h0 : ¬ edgeMem (addNodeList (addNodeList emptyG NType.pathway
        ((pnames d).map fun n => (n, none)))
        NType.metabolite ((met_counts d).map fun it => (it.1, some it.2))) a b = true :=
      hbase _ (by rw [addNodeList_edges, addNodeList_edges]; rfl)
    rw [show p2mL d = d.map (fun e => (e.1, e.2.2)) from rfl, memberPairs_iff]
    constructor
    · rintro (h | h)
      · exact absurd h h0
      · exact h
    · exact Or.inr

theorem map_fst_gene_counts (d : P2) : (gene_counts d).map Prod.fst = geneKeys d := by
  unfold gene_counts
  rw [map_fst_counterItems]
  rfl

theorem map_fst_met_counts (d : P2) : (met_counts d).map Prod.fst = metKeys d := by
  unfold met_counts
  rw [map_fst_counterItems]
  rfl

theorem addMemberEdges_nodes_of_keys (pp : List (String × List String)) (G : NXGraph)
    (h : ∀ pr ∈ pp, pr.1 ∈ G.nodes.map Prod.fst ∧ ∀ x ∈ pr.2, x ∈ G.nodes.map Prod.fst) :
    (addMemberEdges G pp).nodes = G.nodes :=
  addMemberEdges_nodes pp G fun pr hpr => ⟨hasNodeB_iff.mpr (h pr hpr).1,
    fun x hx => hasNodeB_iff.mpr ((h pr hpr).2 x hx)⟩

theorem memberLoop_keys (d : P2) (f : String × (List String × List String) → List String)
    {ks : List String} (hp : ∀ n ∈ pnames d, n ∈ ks) (hg : ∀ g ∈ d.flatMap f, g ∈ ks) :
    ∀ pr ∈ d.map fun e => (e.1, f e), pr.1 ∈ ks ∧ ∀ x ∈ pr.2, x ∈ ks := by
  intro pr hpr
  rcases List.mem_map.mp hpr with ⟨e, he, rfl⟩
  exact ⟨hp e.1 (List.mem_map_of_mem _ he),
    fun x hx => hg x (List.mem_flatMap.mpr ⟨e, he, hx⟩)⟩

/-- Under `GoodInput`, every view's node list is exactly the pathway
nodes followed by the identifier nodes of the kinds it shows, each with
the attributes the code sets. -/
theorem buildGraph_nodes (d : P2) (h : GoodInput d) (v : View) :
    (buildGraph d v).nodes = nodesSpec d v := by
  obtain ⟨h1, h2, h3, h4, h5⟩ := h
  have hpath := pathPhase d h1
  have hgshape : ((gene_counts d).map fun it =>
      (it.1, (⟨some NType.gene, some it.2, none⟩ : Attrs))) = geneNodes d := rfl
  have hmshape : ((met_counts d).map fun it =>
      (it.1, (⟨some NType.metabolite, some it.2, none⟩ : Attrs))) = metNodes d := rfl
  have hgnodup : ((gene_counts d).map Prod.fst).Nodup := by
    rw [map_fst_gene_counts]
    exact nodup_dedupAcc _ _
  have hmnodup : ((met_counts d).map Prod.fst).Nodup := by
    rw [map_fst_met_counts]
    exact nodup_dedupAcc _ _
  have hgeneFresh : ∀ k ∈ (gene_counts d).map Prod.fst, k ∉ (pathNodes d).map Prod.fst := by
    intro k hk
    rw [map_fst_gene_counts] at hk
    rw [map_fst_pathNodes]
    exact h3 k (mem_geneKeys_iff.mp hk)
  have hgenePhase := idPhase NType.gene (gene_counts d) (pathNodes d) hgnodup hgeneFresh
  have hmetFreshP : ∀ k ∈ (met_counts d).map Prod.fst, k ∉ (pathNodes d).map Prod.fst := by
    intro k hk
    rw [map_fst_met_counts] at hk
    rw [map_fst_pathNodes]
    exact h4 k (mem_metKeys_iff.mp hk)
  have hmetPhaseP := idPhase NType.metabolite (met_counts d) (pathNodes d) hmnodup hmetFreshP
  have hmetFreshG : ∀ k ∈ (met_counts d).map Prod.fst,
      k ∉ (pathNodes d ++ geneNodes d).map Prod.fst := by
    intro k hk
    rw [map_fst_met_counts] at hk
    rw [List.map_append, map_fst_pathNodes, map_fst_geneNodes, List.mem_append]
    rintro (hmem | hmem)
    · exact h4 k (mem_metKeys_iff.mp hk) hmem
    · exact h5 k (mem_geneKeys_iff.mp hmem) (mem_metKeys_iff.mp hk)
  have hmetPhaseG := idPhase NType.metabolite (met_counts d) (pathNodes d ++ geneNodes d)
    hmnodup hmetFreshG
  cases v with
  | combined =>
    show (addMemberEdges (addMemberEdges _ (p2gL d)) (p2mL d)).nodes = _
    rw [hpath, hgenePhase, hgshape, hmetPhaseG, hmshape]
    have hkeys : (NXGraph.mk (pathNodes d ++ geneNodes d ++ metNodes d) []).nodes.map Prod.fst =
        pnames d ++ geneKeys d ++ metKeys d := by
      show (pathNodes d ++ geneNodes d ++ metNodes d).map Prod.fst = _
      rw [List.map_append, List.map_append, map_fst_pathNodes, map_fst_geneNodes,
        map_fst_metNodes]
    have hpresg : ∀ pr ∈ p2gL d,
        pr.1 ∈ (NXGraph.mk (pathNodes d ++ geneNodes d ++ metNodes d) []).nodes.map Prod.fst ∧
        ∀ x ∈ pr.2,
          x ∈ (NXGraph.mk (pathNodes d ++ geneNodes d ++ metNodes d) []).nodes.map Prod.fst := by
      refine memberLoop_keys d (fun e => e.2.1) ?_ ?_
      · intro n hn
        rw [hkeys]
        exact List.mem_append_left _ (List.mem_append_left _ hn)
      · intro g hg
        rw [hkeys]
        exact List.mem_append_left _ (List.mem_append_right _ (mem_geneKeys_iff.mpr hg))
    have hinner := addMemberEdges_nodes_of_keys (p2gL d) _ hpresg
    have hpresm : ∀ pr ∈ p2mL d,
        pr.1 ∈ (addMemberEdges (NXGraph.mk (pathNodes d ++ geneNodes d ++ metNodes d) [])
          (p2gL d)).nodes.map Prod.fst ∧
        ∀ x ∈ pr.2,
          x ∈ (addMemberEdges (NXGraph.mk (pathNodes d ++ geneNodes d ++ metNodes d) [])
            (p2gL d)).nodes.map Prod.fst := by
      rw [hinner]
      refine memberLoop_keys d (fun e => e.2.2) ?_ ?_
      · intro n hn
        rw [hkeys]
        exact List.mem_append_left _ (List.mem_append_left _ hn)
      · intro m hm
        rw [hkeys]
        exact List.mem_append_right _ (mem_metKeys_iff.mpr hm)
    rw [addMemberEdges_nodes_of_keys (p2mL d) _ hpresm, hinner]
    show pathNodes d ++ geneNodes d ++ metNodes d = nodesSpec d View.combined
    rw [nodesSpec]
  | genesOnly =>
    show (addMemberEdges _ (p2gL d)).nodes = _
    rw [hpath, hgenePhase, hgshape]
    have hkeys : (NXGraph.mk (pathNodes d ++ geneNodes d) []).nodes.map Prod.fst =
        pnames d ++ geneKeys d := by
      show (pathNodes d ++ geneNodes d).map Prod.fst = _
      rw [List.map_append, map_fst_pathNodes, map_fst_geneNodes]
    have hpresg : ∀ pr ∈ p2gL d,
        pr.1 ∈ (NXGraph.mk (pathNodes d ++ geneNodes d) []).nodes.map Prod.fst ∧
        ∀ x ∈ pr.2, x ∈ (NXGraph.mk (pathNodes d ++ geneNodes d) []).nodes.map Prod.fst := by
      refine memberLoop_keys d (fun e => e.2.1) ?_ ?_
      · intro n hn
        rw [hkeys]
        exact List.mem_append_left _ hn
      · intro g hg
        rw [hkeys]
        exact List.mem_append_right _ (mem_geneKeys_iff.mpr hg)
    rw [addMemberEdges_nodes_of_keys (p2gL d) _ hpresg]
    rfl
  | metabolitesOnly =>
    show (addMemberEdges _ (p2mL d)).nodes = _
    rw [hpath, hmetPhaseP, hmshape]
    have hkeys : (NXGraph.mk (pathNodes d ++ metNodes d) []).nodes.map Prod.fst =
        pnames d ++ metKeys d := by
      show (pathNodes d ++ metNodes d).map Prod.fst = _
      rw [List.map_append, map_fst_pathNodes, map_fst_metNodes]
    have hpresm : ∀ pr ∈ p2mL d,
        pr.1 ∈ (NXGraph.mk (pathNodes d ++ metNodes d) []).nodes.map Prod.fst ∧
        ∀ x ∈ pr.2, x ∈ (NXGraph.mk (pathNodes d ++ metNodes d) []).nodes.map Prod.fst := by
      refine memberLoop_keys d (fun e => e.2.2) ?_ ?_
      · intro n hn
        rw [hkeys]
        exact List.mem_append_left _ hn
      · intro m hm
        rw [hkeys]
        exact List.mem_append_right _ (mem_metKeys_iff.mpr hm)
    rw [addMemberEdges_nodes_of_keys (p2mL d) _ hpresm]
    rfl

theorem filter_nil_of_false {α : Type} {p : α → Bool} :
    ∀ {l : List α}, (∀ a ∈ l, p a = false) → l.filter p = []
  | [], _ => rfl
  | a :: l, h => by
    rw [List.filter_cons, if_neg (by rw [h a (List.mem_cons_self a l)]; exact Bool.false_ne_true)]
    exact filter_nil_of_false fun b hb => h b (List.mem_cons_of_mem a hb)

theorem filterMapComm {α β : Type} (f : α → β) (p : β → Bool) :
    ∀ l : List α, (l.map f).filter p = (l.filter fun a => p (f a)).map f
  | [] => rfl
  | a :: l => by
    rw [List.map_cons, List.filter_cons, List.filter_cons]
    by_cases hpa : p (f a)
    · rw [if_pos hpa, if_pos hpa, List.map_cons, filterMapComm f p l]
    · rw [if_neg hpa, if_neg hpa, filterMapComm f p l]

theorem bool_eq_decide {b : Bool} {p : Prop} [Decidable p] (h : b = true ↔ p) : b = decide p := by
  by_cases hp : p
  · rw [h.mpr hp, decide_eq_true_eq.mpr hp]
  · have hb : b = false := by
      cases hxb : b
      · rfl
      · exact absurd (h.mp hxb) hp
    rw [hb]
    exact (decide_eq_false hp).symm

/-- With distinct pathway names, counting names that are the name of
some pathway satisfying `P` counts the pathways satisfying `P`. -/
theorem count_names_eq (d : P2) (h1 : (pnames d).Nodup)
    (P : String × (List String × List String) → Prop) [DecidablePred P] :
    ((pnames d).filter fun n => decide (∃ pr ∈ d, pr.1 = n ∧ P pr)).length =
      (d.filter fun pr => decide (P pr)).length := by
  induction d with
  | nil => rfl
  | cons e rest ih =>
    rw [show pnames (e :: rest) = e.1 :: pnames rest from rfl] at h1 ⊢
    obtain ⟨hne, h1'⟩ := List.nodup_cons.mp h1
    have htail : ∀ n ∈ pnames rest,
        (decide (∃ pr ∈ e :: rest, pr.1 = n ∧ P pr)) =
          (decide (∃ pr ∈ rest, pr.1 = n ∧ P pr)) := by
      intro n hn
      rw [decide_eq_decide]
      constructor
      · rintro ⟨pr, hpr, heq, hP⟩
        rcases List.mem_cons.mp hpr with rfl | hpr'
        · exact absurd (heq ▸ hn) hne
        · exact ⟨pr, hpr', heq, hP⟩
      · rintro ⟨pr, hpr, heq, hP⟩
        exact ⟨pr, List.mem_cons_of_mem _ hpr, heq, hP⟩
    rw [List.filter_cons, List.filter_cons]
    by_cases hPe : P e
    · rw [if_pos (by rw [decide_eq_true_eq]; exact ⟨e, List.mem_cons_self e rest, rfl, hPe⟩),
        if_pos (by rw [decide_eq_true_eq]; exact hPe), List.length_cons, List.length_cons,
        List.filter_congr htail, ih h1']
    · rw [if_neg ?heg, if_neg (by rw [decide_eq_true_eq]; exact hPe),
        List.filter_congr htail, ih h1']
      case heg =>
        rw [decide_eq_true_eq]
        rintro ⟨pr, hpr, heq, hP⟩
        rcases List.mem_cons.mp hpr with rfl | hpr'
        · exact hPe hP
        · exact hne (heq ▸ List.mem_map_of_mem Prod.fst hpr')

/-- The node entries a view emits besides the pathway part never carry
the pathway type. -/
theorem nodesSpec_split (d : P2) (v : View) :
    ∃ rest, nodesSpec d v = pathNodes d ++ rest ∧
      ∀ q ∈ rest, (q.2.ntype == some NType.pathway) = false := by
  have hg : ∀ q ∈ geneNodes d, (q.2.ntype == some NType.pathway) = false := by
    intro q hq
    rcases List.mem_map.mp hq with ⟨it, _, rfl⟩
    rfl
  have hm : ∀ q ∈ metNodes d, (q.2.ntype == some NType.pathway) = false := by
    intro q hq
    rcases List.mem_map.mp hq with ⟨it, _, rfl⟩
    rfl
  cases v with
  | combined =>
    refine ⟨geneNodes d ++ metNodes d, by rw [nodesSpec, List.append_assoc], ?_⟩
    intro q hq
    rcases List.mem_append.mp hq with hq' | hq'
    · exact hg q hq'
    · exact hm q hq'
  | genesOnly => exact ⟨geneNodes d, rfl, hg⟩
  | metabolitesOnly => exact ⟨metNodes d, rfl, hm⟩

/-- Reduce a pathway-neighbour count to a count over the input list,
given the edge relation restricted to pathway endpoints. -/
theorem pathwayNeighborCount_eq (d : P2) (h1 : (pnames d).Nodup) (v : View) (G : NXGraph)
    (hnodes : G.nodes = nodesSpec d v) (k : String)
    (P : String × (List String × List String) → Prop) [DecidablePred P]
    (hedge : ∀ n ∈ pnames d, (edgeMem G k n = true ↔ ∃ pr ∈ d, pr.1 = n ∧ P pr)) :
    pathwayNeighborCount G k = (d.filter fun pr => decide (P pr)).length := by
  obtain ⟨rest, hsplit, hrest⟩ := nodesSpec_split d v
  unfold pathwayNeighborCount
  rw [hnodes, hsplit, List.filter_append,
    filter_nil_of_false (l := rest) (fun q hq => by rw [hrest q hq]; rfl), List.append_nil]
  unfold pathNodes
  rw [filterMapComm, List.length_map]
  have hshape : ∀ n ∈ pnames d,
      (((pAttrD.ntype == some NType.pathway) && edgeMem G k n)) =
        decide (∃ pr ∈ d, pr.1 = n ∧ P pr) := by
    intro n hn
    rw [show (pAttrD.ntype == some NType.pathway) = true from rfl, Bool.true_and]
    exact bool_eq_decide (hedge n hn)
  rw [List.filter_congr hshape, count_names_eq d h1 P]

theorem pathNodes_elim {d : P2} {p : String × Attrs} (h : p ∈ pathNodes d) :
    p.1 ∈ pnames d ∧ p.2 = pAttrD := by
  rcases List.mem_map.mp h with ⟨n, hn, rfl⟩
  exact ⟨hn, rfl⟩

theorem geneNodes_elim {d : P2} {p : String × Attrs} (h : p ∈ geneNodes d) :
    p.1 ∈ flat_genes d ∧ p.2 = gAttrD ((flat_genes d).count p.1) := by
  rcases List.mem_map.mp h with ⟨it, hit, rfl⟩
  have hmem : (it.1, it.2) ∈ counterItems (flat_genes d) := hit
  have := mem_counterItems_iff.mp hmem
  refine ⟨this.1, ?_⟩
  show gAttrD it.2 = gAttrD ((flat_genes d).count it.1)
  rw [this.2]

theorem metNodes_elim {d : P2} {p : String × Attrs} (h : p ∈ metNodes d) :
    p.1 ∈ flat_mets d ∧ p.2 = mAttrD ((flat_mets d).count p.1) := by
  rcases List.mem_map.mp h with ⟨it, hit, rfl⟩
  have hmem : (it.1, it.2) ∈ counterItems (flat_mets d) := hit
  have := mem_counterItems_iff.mp hmem
  refine ⟨this.1, ?_⟩
  show mAttrD it.2 = mAttrD ((flat_mets d).count it.1)
  rw [this.2]

theorem GEdge_iff_of_not_name {d : P2} {k n : String} (hk : k ∉ pnames d) :
    GEdge d k n ↔ ∃ pr ∈ d, pr.1 = n ∧ k ∈ pr.2.1 := by
  constructor
  · rintro ⟨e, he, ⟨rfl, _⟩ | ⟨rfl, hmem⟩⟩
    · exact absurd (List.mem_map_of_mem Prod.fst he) hk
    · exact ⟨e, he, rfl, hmem⟩
  · rintro ⟨pr, hpr, rfl, hmem⟩
    exact ⟨pr, hpr, Or.inr ⟨rfl, hmem⟩⟩

theorem MEdge_iff_of_not_name {d : P2} {k n : String} (hk : k ∉ pnames d) :
    MEdge d k n ↔ ∃ pr ∈ d, pr.1 = n ∧ k ∈ pr.2.2 := by
  constructor
  · rintro ⟨e, he, ⟨rfl, _⟩ | ⟨rfl, hmem⟩⟩
    · exact absurd (List.mem_map_of_mem Prod.fst he) hk
    · exact ⟨e, he, rfl, hmem⟩
  · rintro ⟨pr, hpr, rfl, hmem⟩
    exact ⟨pr, hpr, Or.inr ⟨rfl, hmem⟩⟩

theorem not_MEdge_of_gene {d : P2} {k n : String} (hk : k ∉ pnames d)
    (hkm : k ∉ flat_mets d) : ¬ MEdge d k n := by
  rintro ⟨e, he, ⟨rfl, _⟩ | ⟨_, hmem⟩⟩
  · exact hk (List.mem_map_of_mem Prod.fst he)
  · exact hkm (List.mem_flatMap.mpr ⟨e, he, hmem⟩)

theorem not_GEdge_of_met {d : P2} {k n : String} (hk : k ∉ pnames d)
    (hkg : k ∉ flat_genes d) : ¬ GEdge d k n := by
  rintro ⟨e, he, ⟨rfl, _⟩ | ⟨_, hmem⟩⟩
  · exact hk (List.mem_map_of_mem Prod.fst he)
  · exact hkg (List.mem_flatMap.mpr ⟨e, he, hmem⟩)

/-- C4's invariant as the claim states it: every gene or metabolite
node's `count` attribute equals its number of distinct pathway-type
neighbours. -/
def FreqInvariant (G : NXGraph) : Prop :=
  ∀ p ∈ G.nodes, (p.2.ntype = some NType.gene ∨ p.2.ntype = some NType.metabolite) →
    p.2.count = some (pathwayNeighborCount G p.1)

/-- The cross-kind key collision input: `X` is a gene of pathway A and
a metabolite of pathway B. -/
def dColl : P2 := [("A", (["X"], [])), ("B", ([], ["X"]))]

/-- C4 (counterexample): with the node-key collision input the combined
graph's node `X` stores count 1 but has 2 distinct pathway-type
neighbours — the claimed invariant fails. -/
theorem collision_breaks_frequency :
    ¬ FreqInvariant (buildGraph dColl View.combined) := by
  unfold FreqInvariant
  decide

/-- C4 (amended): when node keys do not collide across the pathway-name,
gene and metabolite namespaces (`GoodInput`), every gene or metabolite
node of every view carries `count` equal to its number of distinct
pathway-type neighbours. -/
theorem graph_node_frequency (d : P2) (h : GoodInput d) (v : View) :
    FreqInvariant (buildGraph d v) := by
  obtain ⟨h1, h2, h3, h4, h5⟩ := h
  have hnodes := buildGraph_nodes d ⟨h1, h2, h3, h4, h5⟩ v
  intro p hp htype
  rw [hnodes] at hp
  have hgeneCase : p ∈ geneNodes d → v ≠ View.metabolitesOnly →
      p.2.count = some (pathwayNeighborCount (buildGraph d v) p.1) := by
    intro hpg hvne
    obtain ⟨hkflat, hattr⟩ := geneNodes_elim hpg
    have hknp : p.1 ∉ pnames d := h3 p.1 hkflat
    have hedge : ∀ n ∈ pnames d,
        (edgeMem (buildGraph d v) p.1 n = true ↔ ∃ pr ∈ d, pr.1 = n ∧ p.1 ∈ pr.2.1) := by
      intro n _
      rw [buildGraph_edgeMem d v p.1 n]
      cases v with
      | combined =>
        show GEdge d p.1 n ∨ MEdge d p.1 n ↔ _
        constructor
        · rintro (hGE | hME)
          · exact (GEdge_iff_of_not_name hknp).mp hGE
          · exact absurd hME (not_MEdge_of_gene hknp (h5 p.1 hkflat))
        · intro hx
          exact Or.inl ((GEdge_iff_of_not_name hknp).mpr hx)
      | genesOnly =>
        show GEdge d p.1 n ↔ _
        exact GEdge_iff_of_not_name hknp
      | metabolitesOnly => exact absurd rfl hvne
    have hpnc := pathwayNeighborCount_eq d h1 v _ hnodes p.1
      (fun pr => p.1 ∈ pr.2.1) hedge
    rw [hattr]
    show some ((flat_genes d).count p.1) = some (pathwayNeighborCount (buildGraph d v) p.1)
    rw [hpnc]
    exact congrArg some (count_flat_proj d (fun pr hpr => (h2 pr hpr).1) p.1)
  have hmetCase : p ∈ metNodes d → v ≠ View.genesOnly →
      p.2.count = some (pathwayNeighborCount (buildGraph d v) p.1) := by
    intro hpm hvne
    obtain ⟨hkflat, hattr⟩ := metNodes_elim hpm
    have hknp : p.1 ∉ pnames d := h4 p.1 hkflat
    have hkng : p.1 ∉ flat_genes d := fun hg => h5 p.1 hg hkflat
    have hedge : ∀ n ∈ pnames d,
        (edgeMem (buildGraph d v) p.1 n = true ↔ ∃ pr ∈ d, pr.1 = n ∧ p.1 ∈ pr.2.2) := by
      intro n _
      rw [buildGraph_edgeMem d v p.1 n]
      cases v with
      | combined =>
        show GEdge d p.1 n ∨ MEdge d p.1 n ↔ _
        constructor
        · rintro (hGE | hME)
          · exact absurd hGE (not_GEdge_of_met hknp hkng)
          · exact (MEdge_iff_of_not_name hknp).mp hME
        · intro hx
          exact Or.inr ((MEdge_iff_of_not_name hknp).mpr hx)
      | genesOnly => exact absurd rfl hvne
      | metabolitesOnly =>
        show MEdge d p.1 n ↔ _
        exact MEdge_iff_of_not_name hknp
    have hpnc := pathwayNeighborCount_eq d h1 v _ hnodes p.1
      (fun pr => p.1 ∈ pr.2.2) hedge
    rw [hattr]
    show some ((flat_mets d).count p.1) = some (pathwayNeighborCount (buildGraph d v) p.1)
    rw [hpnc]
    exact congrArg some (count_flat_proj d (fun pr hpr => (h2 pr hpr).2) p.1)
  have hpathAbsurd : p ∈ pathNodes d → False := by
    intro hpp
    have hattr := (pathNodes_elim hpp).2
    rcases htype with ht | ht <;> rw [hattr] at ht <;> exact absurd ht (by decide)
  cases v with
  | combined =>
    rcases List.mem_append.mp hp with hp2 | hpm
    · rcases List.mem_append.mp hp2 with hpp | hpg
      · exact absurd hpp hpathAbsurd
      · exact hgeneCase hpg (by intro hcon; exact View.noConfusion hcon)
    · exact hmetCase hpm (by intro hcon; exact View.noConfusion hcon)
  | genesOnly =>
    rcases List.mem_append.mp hp with hpp | hpg
    · exact absurd hpp hpathAbsurd
    · exact hgeneCase hpg (by intro hcon; exact View.noConfusion hcon)
  | metabolitesOnly =>
    rcases List.mem_append.mp hp with hpp | hpm
    · exact absurd hpp hpathAbsurd
    · exact hmetCase hpm (by intro hcon; exact View.noConfusion hcon)

/-- The collision-free witness input for the graph claims. -/
def dOk : P2 := [("PathA", (["TP53"], ["C00031"])), ("PathB", (["TP53"], []))]

/-- Witness for C4 (amended) at a concrete collision-free input. -/
theorem graph_node_frequency_witness :
    GoodInput dOk ∧ FreqInvariant (buildGraph dOk View.combined) :=
  ⟨by unfold GoodInput; decide,
    graph_node_frequency dOk (by unfold GoodInput; decide) View.combined⟩

/-! ## C6: pathway nodes and the claimed category tag -/

/-- ASCII lowercasing (Python `str.lower` on ASCII). -/
def lowerChar (c : Char) : Char :=
  if 'A' ≤ c ∧ c ≤ 'Z' then Char.ofNat (c.toNat + 32) else c

/-- The spec's default keyword-to-category table, in listed order. -/
def specKeywordCategories : List (String × String) :=
  [("cancer", "Cancer"), ("vitamin", "Vitamin"), ("diabetes", "Diabetes"),
    ("drug", "Drug Metabolism")]

/-- First matching keyword wins; no match falls through to `Other`. -/
def specCategorizeGo : List (String × String) → List Char → String
  | [], _ => "Other"
  | (kw, lab) :: rest, name =>
    if isSubstr (kw.data.map lowerChar) name then lab else specCategorizeGo rest name

/-- Modelled from the spec: the keyword categorization function of
§4.4 — case-insensitive substring match of a fixed keyword list against
the pathway name, first match wins, default `Other`. The code has no
counterpart: it never tags nodes with a category. -/
def specCategorize (name : String) : String :=
  specCategorizeGo specKeywordCategories (name.data.map lowerChar)

theorem filter_beq_of_nodup {l : List String} {a : String} (hnd : l.Nodup) (ha : a ∈ l) :
    (l.filter fun m => m == a).length = 1 := by
  induction l with
  | nil => cases ha
  | cons x xs ih =>
    obtain ⟨hx, hnd'⟩ := List.nodup_cons.mp hnd
    rcases List.mem_cons.mp ha with rfl | ha'
    · rw [List.filter_cons, if_pos (by simp), List.length_cons,
        filter_nil_of_false (l := xs) (fun b hb => by
          simp only [beq_eq_false_iff_ne]
          rintro rfl
          exact hx hb)]
      rfl
    · rw [List.filter_cons, if_neg (by
        simp only [beq_iff_eq]
        rintro rfl
        exact hx ha')]
      exact ih hnd' ha'

theorem nodesSpec_split_keys (d : P2) (v : View) :
    ∃ rest, nodesSpec d v = pathNodes d ++ rest ∧
      ∀ q ∈ rest, q.1 ∈ flat_genes d ∨ q.1 ∈ flat_mets d := by
  have hg : ∀ q ∈ geneNodes d, q.1 ∈ flat_genes d ∨ q.1 ∈ flat_mets d := fun q hq =>
    Or.inl (geneNodes_elim hq).1
  have hm : ∀ q ∈ metNodes d, q.1 ∈ flat_genes d ∨ q.1 ∈ flat_mets d := fun q hq =>
    Or.inr (metNodes_elim hq).1
  cases v with
  | combined =>
    refine ⟨geneNodes d ++ metNodes d, by rw [nodesSpec, List.append_assoc], ?_⟩
    intro q hq
    rcases List.mem_append.mp hq with hq' | hq'
    · exact hg q hq'
    · exact hm q hq'
  | genesOnly => exact ⟨geneNodes d, rfl, hg⟩
  | metabolitesOnly => exact ⟨metNodes d, rfl, hm⟩

/-- The collision input for C6's counterexample: one cancer pathway. -/
def dC6 : P2 := [("Pancreatic cancer", (["BRAF"], []))]

/-- C6 (counterexample): the keyword categorization resolves
`Pancreatic cancer` to `Cancer`, but the emitted pathway node carries
no category attribute at all (`category = none`), so it is not tagged
with the resolved category. -/
theorem pathway_node_has_no_category :
    specCategorize "Pancreatic cancer" = "Cancer" ∧
    ("Pancreatic cancer", pAttrD) ∈ (buildGraph dC6 View.combined).nodes ∧
    (∀ q ∈ (buildGraph dC6 View.combined).nodes, q.1 = "Pancreatic cancer" →
      q.2.category ≠ some (specCategorize "Pancreatic cancer")) := by
  decide

/-- C6 (amended): for every selected pathway (no key collisions), every
view emits exactly one node keyed by the pathway name; it is a pathway
node with the attributes the code sets — no category attribute. -/
theorem pathway_node_unique_no_category (d : P2) (h : GoodInput d) (v : View) (n : String)
    (hn : n ∈ pnames d) :
    ((buildGraph d v).nodes.filter fun q => q.1 == n).length = 1 ∧
    (n, pAttrD) ∈ (buildGraph d v).nodes ∧ pAttrD.category = none := by
  have hnodes := buildGraph_nodes d h v
  obtain ⟨h1, h2, h3, h4, h5⟩ := h
  obtain ⟨rest, hsplit, hkeys⟩ := nodesSpec_split_keys d v
  refine ⟨?_, ?_, rfl⟩
  · rw [hnodes, hsplit, List.filter_append, filter_nil_of_false (l := rest) (fun q hq => by
      simp only [beq_eq_false_iff_ne]
      rintro rfl
      rcases hkeys q hq with hg | hm
      · exact h3 q.1 hg hn
      · exact h4 q.1 hm hn), List.append_nil]
    unfold pathNodes
    rw [filterMapComm, List.length_map]
    show ((pnames d).filter fun m => m == n).length = 1
    exact filter_beq_of_nodup h1 hn
  · rw [hnodes, hsplit]
    exact List.mem_append_left _ (List.mem_map.mpr ⟨n, hn, rfl⟩)

/-- Witness for C6 (amended) at a concrete collision-free input. -/
theorem pathway_node_unique_no_category_witness :
    GoodInput dOk ∧ "PathA" ∈ pnames dOk ∧
      ((((buildGraph dOk View.combined).nodes.filter fun q => q.1 == "PathA").length = 1 ∧
        ("PathA", pAttrD) ∈ (buildGraph dOk View.combined).nodes ∧ pAttrD.category = none)) :=
  ⟨by unfold GoodInput; decide, by decide,
    pathway_node_unique_no_category dOk (by unfold GoodInput; decide) View.combined "PathA"
      (by decide)⟩

/-! ## C5: the view mode as a pure filter -/

/-- The `type` attribute of the node keyed `k`, if the node exists. -/
def typeOf (G : NXGraph) (k : String) : Option NType :=
  match G.nodes.find? fun p => p.1 == k with
  | some p => p.2.ntype
  | none => none

/-- Is the type pathway-or-gene (what the genes-only restriction
keeps)? -/
def pgType (t : Option NType) : Bool :=
  t == some NType.pathway || t == some NType.gene

/-- The combined view's node list restricted to pathway and gene
nodes. -/
def pgRestrictNodes (G : NXGraph) : List (String × Attrs) :=
  G.nodes.filter fun p => pgType p.2.ntype

/-- C5 as the claim states it: the genes-only graph has no metabolite
nodes and no edge touching a metabolite node; its nodes and edge set
are the combined view's restricted to pathway/gene nodes; and a node
key present in two views carries the same `count` in both. -/
def ViewFilterPure (d : P2) : Prop :=
  (∀ p ∈ (buildGraph d View.genesOnly).nodes, p.2.ntype ≠ some NType.metabolite) ∧
  (∀ e ∈ (buildGraph d View.genesOnly).edges,
    typeOf (buildGraph d View.genesOnly) e.1 ≠ some NType.metabolite ∧
    typeOf (buildGraph d View.genesOnly) e.2 ≠ some NType.metabolite) ∧
  pgRestrictNodes (buildGraph d View.combined) = (buildGraph d View.genesOnly).nodes ∧
  (∀ e ∈ (buildGraph d View.combined).edges,
    (pgType (typeOf (buildGraph d View.combined) e.1) &&
      pgType (typeOf (buildGraph d View.combined) e.2)) = true →
    edgeMem (buildGraph d View.genesOnly) e.1 e.2 = true) ∧
  (∀ e ∈ (buildGraph d View.genesOnly).edges,
    edgeMem (buildGraph d View.combined) e.1 e.2 = true ∧
    pgType (typeOf (buildGraph d View.combined) e.1) = true ∧
    pgType (typeOf (buildGraph d View.combined) e.2) = true) ∧
  (∀ v v' : View, ∀ p ∈ (buildGraph d v).nodes, ∀ q ∈ (buildGraph d v').nodes,
    p.1 = q.1 → p.2.count = q.2.count)

/-- The collision input for C5's counterexample: `X` is a gene of both
pathways and additionally a metabolite of pathway B. -/
def dColl5 : P2 := [("A", (["X"], [])), ("B", (["X"], ["X"]))]

/-- C5 (counterexample): with a gene/metabolite key collision the
combined view retypes node `X` to metabolite with the metabolite count,
so the pathway/gene restriction of the combined view loses `X` while
the genes-only view keeps it with the gene count — the claim fails. -/
theorem collision_breaks_view_filter : ¬ ViewFilterPure dColl5 := by
  unfold ViewFilterPure
  decide

theorem edgeMem_of_mem_edges {G : NXGraph} {e : String × String} (he : e ∈ G.edges) :
    edgeMem G e.1 e.2 = true :=
  edgeMem_iff.mpr ⟨e, he, Or.inl ⟨rfl, rfl⟩⟩

theorem filter_self_of_true {α : Type} {p : α → Bool} :
    ∀ {l : List α}, (∀ a ∈ l, p a = true) → l.filter p = l
  | [], _ => rfl
  | a :: l, h => by
    rw [List.filter_cons, if_pos (h a (List.mem_cons_self a l)),
      filter_self_of_true fun b hb => h b (List.mem_cons_of_mem a hb)]

theorem find?_of_mem_nodup {l : List (String × Attrs)} {k : String} {a : Attrs}
    (hnd : (l.map Prod.fst).Nodup) (hmem : (k, a) ∈ l) :
    l.find? (fun p => p.1 == k) = some (k, a) := by
  induction l with
  | nil => cases hmem
  | cons x xs ih =>
    rw [List.map_cons] at hnd
    obtain ⟨hx, hnd'⟩ := List.nodup_cons.mp hnd
    rcases List.mem_cons.mp hmem with rfl | hmem'
    · exact List.find?_cons_of_pos _ (by simp)
    · have hkx : ¬ x.1 = k := by
        rintro rfl
        exact hx (List.mem_map.mpr ⟨(x.1, a), hmem', rfl⟩)
      rw [List.find?_cons_of_neg _ (by simp [hkx])]
      exact ih hnd' hmem'

theorem nodesSpec_keys_nodup (d : P2) (h : GoodInput d) (v : View) :
    ((nodesSpec d v).map Prod.fst).Nodup := by
  obtain ⟨h1, _, h3, h4, h5⟩ := h
  have hgnd : (geneKeys d).Nodup := nodup_dedupAcc _ _
  have hmnd : (metKeys d).Nodup := nodup_dedupAcc _ _
  have hpg : List.Disjoint (pnames d) (geneKeys d) := fun a ha hag =>
    h3 a (mem_geneKeys_iff.mp hag) ha
  have hpm : List.Disjoint (pnames d) (metKeys d) := fun a ha ham =>
    h4 a (mem_metKeys_iff.mp ham) ha
  have hgm : List.Disjoint (geneKeys d) (metKeys d) := fun a hag ham =>
    h5 a (mem_geneKeys_iff.mp hag) (mem_metKeys_iff.mp ham)
  cases v with
  | combined =>
    show (((pathNodes d ++ geneNodes d) ++ metNodes d).map Prod.fst).Nodup
    rw [List.map_append, List.map_append, map_fst_pathNodes, map_fst_geneNodes,
      map_fst_metNodes]
    refine List.Nodup.append (List.Nodup.append h1 hgnd hpg) hmnd ?_
    intro a ha ham
    rcases List.mem_append.mp ha with ha' | ha'
    · exact hpm ha' ham
    · exact hgm ha' ham
  | genesOnly =>
    show ((pathNodes d ++ geneNodes d).map Prod.fst).Nodup
    rw [List.map_append, map_fst_pathNodes, map_fst_geneNodes]
    exact List.Nodup.append h1 hgnd hpg
  | metabolitesOnly =>
    show ((pathNodes d ++ metNodes d).map Prod.fst).Nodup
    rw [List.map_append, map_fst_pathNodes, map_fst_metNodes]
    exact List.Nodup.append h1 hmnd hpm

theorem typeOf_buildGraph (d : P2) (h : GoodInput d) (v : View) {k : String} {a : Attrs}
    (hmem : (k, a) ∈ nodesSpec d v) : typeOf (buildGraph d v) k = a.ntype := by
  unfold typeOf
  rw [buildGraph_nodes d h v,
    find?_of_mem_nodup (nodesSpec_keys_nodup d h v) hmem]

/-- Class of a node key, exclusive under `GoodInput`. -/
theorem attr_classes (d : P2) (h3 : ∀ g ∈ flat_genes d, g ∉ pnames d)
    (h4 : ∀ m ∈ flat_mets d, m ∉ pnames d) (h5 : ∀ g ∈ flat_genes d, g ∉ flat_mets d)
    {v : View} {k : String} {a : Attrs} (hmem : (k, a) ∈ nodesSpec d v) :
    (k ∈ pnames d ∧ a = pAttrD) ∨
    (k ∉ pnames d ∧ k ∈ flat_genes d ∧ a = gAttrD ((flat_genes d).count k)) ∨
    (k ∉ pnames d ∧ k ∉ flat_genes d ∧ a = mAttrD ((flat_mets d).count k)) := by
  have hpath : (k, a) ∈ pathNodes d →
      (k ∈ pnames d ∧ a = pAttrD) ∨
      (k ∉ pnames d ∧ k ∈ flat_genes d ∧ a = gAttrD ((flat_genes d).count k)) ∨
      (k ∉ pnames d ∧ k ∉ flat_genes d ∧ a = mAttrD ((flat_mets d).count k)) := fun hp =>
    Or.inl ⟨(pathNodes_elim hp).1, (pathNodes_elim hp).2⟩
  have hgene : (k, a) ∈ geneNodes d →
      (k ∈ pnames d ∧ a = pAttrD) ∨
      (k ∉ pnames d ∧ k ∈ flat_genes d ∧ a = gAttrD ((flat_genes d).count k)) ∨
      (k ∉ pnames d ∧ k ∉ flat_genes d ∧ a = mAttrD ((flat_mets d).count k)) :=
    fun hp => Or.inr (Or.inl ⟨h3 k (geneNodes_elim hp).1, (geneNodes_elim hp).1,
      (geneNodes_elim hp).2⟩)
  have hmet : (k, a) ∈ metNodes d →
      (k ∈ pnames d ∧ a = pAttrD) ∨
      (k ∉ pnames d ∧ k ∈ flat_genes d ∧ a = gAttrD ((flat_genes d).count k)) ∨
      (k ∉ pnames d ∧ k ∉ flat_genes d ∧ a = mAttrD ((flat_mets d).count k)) :=
    fun hp => Or.inr (Or.inr ⟨h4 k (metNodes_elim hp).1,
      fun hg => h5 k hg (metNodes_elim hp).1, (metNodes_elim hp).2⟩)
  cases v with
  | combined =>
    rcases List.mem_append.mp hmem with hp2 | hpm
    · rcases List.mem_append.mp hp2 with hpp | hpg
      · exact hpath hpp
      · exact hgene hpg
    · exact hmet hpm
  | genesOnly =>
    rcases List.mem_append.mp hmem with hpp | hpg
    · exact hpath hpp
    · exact hgene hpg
  | metabolitesOnly =>
    rcases List.mem_append.mp hmem with hpp | hpm
    · exact hpath hpp
    · exact hmet hpm

/-- C5 (amended): under `GoodInput` the genes-only view has no
metabolite nodes or metabolite-touching edges, its node and edge sets
are exactly the combined view's restriction to pathway/gene nodes, and
switching views never changes a node's `count` attribute. -/
theorem view_mode_is_pure_filter (d : P2) (h : GoodInput d) : ViewFilterPure d := by
  have hnodesC := buildGraph_nodes d h View.combined
  have hnodesG := buildGraph_nodes d h View.genesOnly
  obtain ⟨h1, h2, h3, h4, h5⟩ := h
  have hGI : GoodInput d := ⟨h1, h2, h3, h4, h5⟩
  have hclassG : ∀ {k : String} {a : Attrs}, (k, a) ∈ nodesSpec d View.genesOnly →
      (k ∈ pnames d ∧ a = pAttrD) ∨
      (k ∉ pnames d ∧ k ∈ flat_genes d ∧ a = gAttrD ((flat_genes d).count k)) := by
    intro k a hmem
    rcases List.mem_append.mp hmem with hpp | hpg
    · exact Or.inl ⟨(pathNodes_elim hpp).1, (pathNodes_elim hpp).2⟩
    · exact Or.inr ⟨h3 k (geneNodes_elim hpg).1, (geneNodes_elim hpg).1,
        (geneNodes_elim hpg).2⟩
  have hTname : ∀ n ∈ pnames d, typeOf (buildGraph d View.combined) n = some NType.pathway := by
    intro n hn
    exact typeOf_buildGraph d hGI View.combined
      (List.mem_append_left _ (List.mem_append_left _ (List.mem_map.mpr ⟨n, hn, rfl⟩)))
  have hTgene : ∀ g ∈ flat_genes d,
      typeOf (buildGraph d View.combined) g = some NType.gene := by
    intro g hg
    have : (g, gAttrD ((flat_genes d).count g)) ∈ geneNodes d := by
      unfold geneNodes gene_counts
      exact List.mem_map.mpr ⟨(g, (flat_genes d).count g),
        mem_counterItems_iff.mpr ⟨hg, rfl⟩, rfl⟩
    exact typeOf_buildGraph d hGI View.combined
      (List.mem_append_left _ (List.mem_append_right _ this))
  have hTmet : ∀ m ∈ flat_mets d,
      typeOf (buildGraph d View.combined) m = some NType.metabolite := by
    intro m hm
    have : (m, mAttrD ((flat_mets d).count m)) ∈ metNodes d := by
      unfold metNodes met_counts
      exact List.mem_map.mpr ⟨(m, (flat_mets d).count m),
        mem_counterItems_iff.mpr ⟨hm, rfl⟩, rfl⟩
    exact typeOf_buildGraph d hGI View.combined (List.mem_append_right _ this)
  have hTnameG : ∀ n ∈ pnames d,
      typeOf (buildGraph d View.genesOnly) n = some NType.pathway := by
    intro n hn
    exact typeOf_buildGraph d hGI View.genesOnly
      (List.mem_append_left _ (List.mem_map.mpr ⟨n, hn, rfl⟩))
  have hTgeneG : ∀ g ∈ flat_genes d,
      typeOf (buildGraph d View.genesOnly) g = some NType.gene := by
    intro g hg
    have : (g, gAttrD ((flat_genes d).count g)) ∈ geneNodes d := by
      unfold geneNodes gene_counts
      exact List.mem_map.mpr ⟨(g, (flat_genes d).count g),
        mem_counterItems_iff.mpr ⟨hg, rfl⟩, rfl⟩
    exact typeOf_buildGraph d hGI View.genesOnly (List.mem_append_right _ this)
  refine ⟨?_, ?_, ?_, ?_, ?_, ?_⟩
  · -- no metabolite nodes in the genes-only view
    intro p hp
    rw [hnodesG] at hp
    rcases hclassG hp with ⟨_, ha⟩ | ⟨_, _, ha⟩ <;> rw [ha] <;>
      exact fun hx => NType.noConfusion (Option.some.inj hx)
  · -- no metabolite-touching edges in the genes-only view
    intro e he
    have hmem := edgeMem_of_mem_edges he
    rw [buildGraph_edgeMem] at hmem
    rcases hmem with ⟨pr, hpr, ⟨heq, hg⟩ | ⟨heq, hg⟩⟩
    · constructor
      · rw [heq, hTnameG pr.1 (List.mem_map_of_mem Prod.fst hpr)]
        exact fun hx => NType.noConfusion (Option.some.inj hx)
      · rw [hTgeneG e.2 (List.mem_flatMap.mpr ⟨pr, hpr, hg⟩)]
        exact fun hx => NType.noConfusion (Option.some.inj hx)
    · constructor
      · rw [hTgeneG e.1 (List.mem_flatMap.mpr ⟨pr, hpr, hg⟩)]
        exact fun hx => NType.noConfusion (Option.some.inj hx)
      · rw [heq, hTnameG pr.1 (List.mem_map_of_mem Prod.fst hpr)]
        exact fun hx => NType.noConfusion (Option.some.inj hx)
  · -- node restriction
    unfold pgRestrictNodes
    rw [hnodesC, hnodesG]
    show ((pathNodes d ++ geneNodes d) ++ metNodes d).filter _ = pathNodes d ++ geneNodes d
    rw [List.filter_append, List.filter_append,
      filter_self_of_true (l := pathNodes d) (fun q hq => by
        rw [(pathNodes_elim hq).2]; rfl),
      filter_self_of_true (l := geneNodes d) (fun q hq => by
        rw [(geneNodes_elim hq).2]; rfl),
      filter_nil_of_false (l := metNodes d) (fun q hq => by
        rw [(metNodes_elim hq).2]; rfl),
      List.append_nil]
  · -- combined edges restricted to pathway/gene endpoints are gene edges
    intro e he htypes
    have hmem := edgeMem_of_mem_edges he
    rw [buildGraph_edgeMem] at hmem
    rcases hmem with hGE | hME
    · rw [buildGraph_edgeMem]
      exact hGE
    · exfalso
      rcases hME with ⟨pr, hpr, ⟨heq, hm⟩ | ⟨heq, hm⟩⟩
      · rw [hTmet e.2 (List.mem_flatMap.mpr ⟨pr, hpr, hm⟩)] at htypes
        rcases Bool.and_eq_true_iff.mp htypes with ⟨_, hbad⟩
        exact Bool.false_ne_true hbad
      · rw [hTmet e.1 (List.mem_flatMap.mpr ⟨pr, hpr, hm⟩)] at htypes
        rcases Bool.and_eq_true_iff.mp htypes with ⟨hbad, _⟩
        exact Bool.false_ne_true hbad
  · -- gene edges are combined edges with pathway/gene endpoints
    intro e he
    have hmem := edgeMem_of_mem_edges he
    rw [buildGraph_edgeMem] at hmem
    refine ⟨by rw [buildGraph_edgeMem]; exact Or.inl hmem, ?_, ?_⟩
    · rcases hmem with ⟨pr, hpr, ⟨heq, _⟩ | ⟨_, hg⟩⟩
      · rw [heq, hTname pr.1 (List.mem_map_of_mem Prod.fst hpr)]
        rfl
      · rw [hTgene e.1 (List.mem_flatMap.mpr ⟨pr, hpr, hg⟩)]
        rfl
    · rcases hmem with ⟨pr, hpr, ⟨_, hg⟩ | ⟨heq, _⟩⟩
      · rw [hTgene e.2 (List.mem_flatMap.mpr ⟨pr, hpr, hg⟩)]
        rfl
      · rw [heq, hTname pr.1 (List.mem_map_of_mem Prod.fst hpr)]
        rfl
  · -- counts never change across views
    intro v v' p hma q hma' hkey
    rw [buildGraph_nodes d hGI v] at hma
    rw [buildGraph_nodes d hGI v'] at hma'
    have hma2 : (p.1, p.2) ∈ nodesSpec d v := hma
    have hma2' : (p.1, q.2) ∈ nodesSpec d v' := by rw [hkey]; exact hma'
    rcases attr_classes d h3 h4 h5 hma2 with ⟨hk, ha⟩ | ⟨hk, hkf, ha⟩ | ⟨hk, hkg, ha⟩ <;>
      rcases attr_classes d h3 h4 h5 hma2' with ⟨hk', ha'⟩ | ⟨hk', hkf', ha'⟩ |
        ⟨hk', hkg', ha'⟩
    · rw [ha, ha']
    · exact absurd hk hk'
    · exact absurd hk hk'
    · exact absurd hk' hk
    · rw [ha, ha']
    · exact absurd hkf hkg'
    · exact absurd hk' hk
    · exact absurd hkf' hkg
    · rw [ha, ha']

/-- Witness for C5 (amended) at a concrete collision-free input. -/
theorem view_mode_is_pure_filter_witness :
    GoodInput dOk ∧ ViewFilterPure dOk :=
  ⟨by unfold GoodInput; decide,
    view_mode_is_pure_filter dOk (by unfold GoodInput; decide)⟩

end PathwayAnalyzer
